import Mathlib

/-!
# Verification of the content-extraction and normalization pipeline

A shallow embedding of the core of the `ai-agent-profiling-backend`
repository: the text-normalization utilities (`app/utils/text_cleaning.py`),
the PDF extraction cascade (`app/services/pdf_service.py`), and the
aggregation / response-parsing contract (`app/services/openai_service.py`).

Python strings are modelled as `List Char`; Python `str.split`, `str.strip`,
`re.sub` for the concrete patterns used by the code, and dict-shaped payloads
are translated operation by operation.  All definitions are executable.
-/

set_option autoImplicit false

namespace Profiling

/-- Python whitespace class `\s` (ASCII fragment): space, tab, newline,
carriage return, vertical tab, form feed. -/
def isSpaceCh (c : Char) : Bool :=
  c = ' ' || c = '\t' || c = '\n' || c = '\r' || c = '\x0b' || c = '\x0c'

/-- Python word class `\w` (ASCII fragment): letters, digits, underscore. -/
def isWordCh (c : Char) : Bool :=
  c.isAlphanum || c = '_'

/-- Characters kept by `clean_text`'s character filter
`re.sub(r'[^\w\s.,!?;:()\-\'"]', ' ', text)`: word characters, whitespace,
and the listed punctuation. -/
def allowedCh (c : Char) : Bool :=
  isWordCh c || isSpaceCh c ||
    ([ '.', ',', '!', '?', ';', ':', '(', ')', '-', '\'', '"' ].contains c)

/-- Drop the leading maximal run of non-whitespace characters
(the region a greedy `\S+` consumes). -/
def dropNonSpace (l : List Char) : List Char :=
  l.dropWhile (fun c => !isSpaceCh c)

/-- The leading maximal run of non-whitespace characters. -/
def takeNonSpace (l : List Char) : List Char :=
  l.takeWhile (fun c => !isSpaceCh c)

/-- Remove trailing Python whitespace (the right half of `str.strip`). -/
def dropTrail (l : List Char) : List Char :=
  (l.reverse.dropWhile isSpaceCh).reverse

/-- Python `str.strip()`: remove leading and trailing whitespace. -/
def stripCh (l : List Char) : List Char :=
  dropTrail (l.dropWhile isSpaceCh)

/-- Python `str.split(sep)` for a single-character separator: splits at every
occurrence, keeping empty pieces; `"".split(sep) == ['']`. -/
def splitSep (sep : Char) : List Char → List (List Char)
  | [] => [[]]
  | c :: cs =>
    if c = sep then [] :: splitSep sep cs
    else
      match splitSep sep cs with
      | r :: rs => (c :: r) :: rs
      | [] => [[c]]

/-- `text.split('\n')`, as used throughout `text_cleaning.py`. -/
def splitNl (l : List Char) : List (List Char) :=
  splitSep '\n' l

/-- Python `'\n'.join(paragraphs)`. -/
def joinNl : List (List Char) → List Char
  | [] => []
  | [p] => p
  | p :: q :: rest => p ++ '\n' :: joinNl (q :: rest)

/-! ## `remove_duplicates` (text_cleaning.py, lines 38-64) -/

/-- The seen-set loop of `remove_duplicates`: keep each paragraph the first
time it is met, skip it when it is already in `seen`. -/
def dedupAux (seen : List (List Char)) : List (List Char) → List (List Char)
  | [] => []
  | p :: ps =>
    if p ∈ seen then dedupAux seen ps
    else p :: dedupAux (p :: seen) ps

/-- The trimmed non-empty paragraph list of a text:
`[p.strip() for p in text.split('\n') if p.strip()]`. -/
def trimmedPars (text : List Char) : List (List Char) :=
  ((splitNl text).map stripCh).filter (fun p => p ≠ [])

/-- `remove_duplicates` from `text_cleaning.py`: split on newlines, trim,
drop empties, keep first occurrences, join back with newlines. -/
def remove_duplicates (text : List Char) : List Char :=
  joinNl (dedupAux [] (trimmedPars text))

/-! ## `clean_text` (text_cleaning.py, lines 66-88)

Each `re.sub` call is embedded as a left-to-right scan with the exact
consume-length of the concrete pattern:

* `https?://\S+|www\.\S+` — at a match position, the whole match is the
  maximal non-whitespace run starting there (the scheme characters are
  non-whitespace and the trailing greedy `\S+` runs to the end of the run);
* `\S+@\S+` — a position matches iff it starts a non-whitespace run that
  contains `'@'` at an interior index with at least one non-whitespace
  character after it, and the match again consumes the whole run.
-/

/-- Does `l` start with the prefix `p` followed by at least one
non-whitespace character?  (`p` then `\S`, the shape of `https?://\S` and
`www\.\S`.) -/
def prefNS (p : List Char) (l : List Char) : Bool :=
  p.isPrefixOf l &&
    (match l.drop p.length with
     | c :: _ => !isSpaceCh c
     | [] => false)

/-- Does the regex `https?://\S+|www\.\S+` match at the head of `l`? -/
def urlAt (l : List Char) : Bool :=
  prefNS [ 'h', 't', 't', 'p', ':', '/', '/' ] l ||
    prefNS [ 'h', 't', 't', 'p', 's', ':', '/', '/' ] l ||
    prefNS [ 'w', 'w', 'w', '.' ] l

/-- `re.sub(r'https?://\S+|www\.\S+', '', text)`: scan left to right; at a
match, remove the whole non-whitespace run starting there and continue after
it; otherwise copy one character. -/
def pySubUrl : List Char → List Char
  | [] => []
  | c :: cs =>
    if urlAt (c :: cs) then pySubUrl (dropNonSpace cs)
    else c :: pySubUrl cs
termination_by l => l.length
decreasing_by
  · exact Nat.lt_succ_of_le ((List.dropWhile_sublist _).length_le)
  · simp

/-- Does the regex `\S+@\S+` match at the head of `l`?  True iff the leading
non-whitespace run has `'@'` at an index `i` with `1 ≤ i ≤ run.length - 2`. -/
def emailAt (l : List Char) : Bool :=
  match takeNonSpace l with
  | _ :: rest => rest.dropLast.contains '@'
  | [] => false

/-- `re.sub(r'\S+@\S+', '', text)`: scan left to right; at a match, remove
the whole non-whitespace run starting there; otherwise copy one character. -/
def pySubEmail : List Char → List Char
  | [] => []
  | c :: cs =>
    if emailAt (c :: cs) then pySubEmail (dropNonSpace cs)
    else c :: pySubEmail cs
termination_by l => l.length
decreasing_by
  · exact Nat.lt_succ_of_le ((List.dropWhile_sublist _).length_le)
  · simp

/-- One character of `re.sub(r'[^\w\s.,!?;:()\-\'"]', ' ', text)`. -/
def keepAllowed (c : Char) : Char :=
  if allowedCh c then c else ' '

/-- `re.sub(r'\s+', ' ', text)`: replace each maximal whitespace run by a
single space. -/
def collapseWs : List Char → List Char
  | [] => []
  | c :: cs =>
    if isSpaceCh c then ' ' :: collapseWs (cs.dropWhile isSpaceCh)
    else c :: collapseWs cs
termination_by l => l.length
decreasing_by
  · exact Nat.lt_succ_of_le ((List.dropWhile_sublist _).length_le)
  · simp

/-- `clean_text` from `text_cleaning.py`: remove URLs, remove e-mail-shaped
tokens, space out disallowed characters, collapse whitespace, strip. -/
def clean_text (text : List Char) : List Char :=
  stripCh (collapseWs ((pySubEmail (pySubUrl text)).map keepAllowed))

/-! ## `chunk_text` (text_cleaning.py, lines 90-136) -/

/-- The paragraph loop of `chunk_text`: `cur` is `current_chunk`; on
overflow the current chunk is flushed (when non-empty, stripped) and a new
chunk starts with the paragraph; otherwise the paragraph is appended.  The
trailing chunk is flushed at the end when non-empty. -/
def chunkLoop (mc : Nat) (cur : List Char) : List (List Char) → List (List Char)
  | [] => if cur = [] then [] else [stripCh cur]
  | p :: ps =>
    if cur.length + p.length > mc then
      (if cur = [] then [] else [stripCh cur]) ++ chunkLoop mc (p ++ ['\n']) ps
    else
      chunkLoop mc (cur ++ p ++ ['\n']) ps

/-- `chunk_text` from `text_cleaning.py` with `chars_per_token = 4`:
if the whole text fits in `max_tokens * 4` characters it is returned as a
single chunk, otherwise paragraphs are greedily accumulated. -/
def chunk_text (text : List Char) (maxTokens : Nat) : List (List Char) :=
  let maxChars := maxTokens * 4
  if text.length ≤ maxChars then [text]
  else chunkLoop maxChars [] (splitNl text)

/-! ## PDF extraction cascade (pdf_service.py, lines 45-73)

The four extraction strategies call external PDF libraries, so the cascade is
embedded as a function of their outputs: `pymupdf`, `pdfplumber` and `pypdf2`
are the strings the three parsers would return for the document (empty when a
parser throws, as the code catches exceptions and keeps `text = ""`),
`isScanned` is the result of `is_scanned_pdf`, and `ocr` the OCR output.
The cascade logic itself — the `if not text or len(text.strip()) < 100`
chain — is translated verbatim.  The result also records which fallback
strategies were reached, for stating the short-circuit contract. -/

structure PdfStrategies where
  pymupdf : List Char
  pdfplumber : List Char
  pypdf2 : List Char
  isScanned : Bool
  ocr : List Char
deriving DecidableEq, Repr

/-- The fallback trigger of the cascade: `not text or len(text.strip()) < 100`. -/
def lowYield (text : List Char) : Bool :=
  text = [] || (stripCh text).length < 100

/-- `extract_text_from_pdf` with instrumentation: the extracted text plus
three flags telling whether the pdfplumber, PyPDF2 and scanned/OCR stages
were reached. -/
def extract_text_from_pdfI (s : PdfStrategies) :
    List Char × Bool × Bool × Bool :=
  let t1 := s.pymupdf
  if lowYield t1 then
    let t2 := s.pdfplumber
    if lowYield t2 then
      let t3 := s.pypdf2
      if lowYield t3 then
        (if s.isScanned then s.ocr else t3, true, true, true)
      else (t3, true, true, false)
    else (t2, true, false, false)
  else (t1, false, false, false)

/-- `extract_text_from_pdf` from `pdf_service.py`: the returned text. -/
def extract_text_from_pdf (s : PdfStrategies) : List Char :=
  (extract_text_from_pdfI s).1

/-- Number of non-whitespace characters, the spec's reading of the
minimum-yield threshold ("100 non-whitespace characters"). -/
def nonWsCount (text : List Char) : Nat :=
  (text.filter (fun c => !isSpaceCh c)).length

/-! ## Profile response parsing (openai_service.py, lines 97-156) -/

/-- Find the first occurrence of `pat` in `l`: `some (before, after)` splits
`l` as `before ++ pat ++ after` at the first match, `none` when `pat` does
not occur.  (`re.search` for a literal pattern.) -/
def breakOn (pat : List Char) : List Char → Option (List Char × List Char)
  | [] => if pat.isPrefixOf ([] : List Char) then some ([], []) else none
  | c :: cs =>
    if pat.isPrefixOf (c :: cs) then some ([], (c :: cs).drop pat.length)
    else (breakOn pat cs).map (fun pr => (c :: pr.1, pr.2))

/-- The `(?=\*\*|\Z)` lookahead boundary. -/
def starsPat : List Char := [ '*', '*' ]

/-- The lazy group `(.*?)(?=\*\*|\Z)` with `re.DOTALL`: everything up to the
first `**` marker, or the whole string when there is none. -/
def upToStars (l : List Char) : List Char :=
  match breakOn starsPat l with
  | some pr => pr.1
  | none => l

/-- The section captured for a label: text after the first occurrence of the
label, up to the next `**` marker or the end; `none` when the label is
missing. -/
def sectionFor (label : List Char) (t : List Char) : Option (List Char) :=
  (breakOn label t).map (fun pr => upToStars pr.2)

/-- `[item.strip() for item in text.split(',') if item.strip()]`. -/
def commaItems (l : List Char) : List (List Char) :=
  ((splitSep ',' l).map stripCh).filter (fun p => p ≠ [])

/-- The structured profile record built by `parse_profile_text`. -/
structure Profile where
  name : List Char
  expertise : List (List Char)
  target_audience : List (List Char)
  activity_summary : List Char
  personal_tone : List Char
  strengths : List (List Char)
deriving DecidableEq, Repr

/-- The six labels of the response template. -/
def nameLbl : List Char := "**Name:**".toList

def expertiseLbl : List Char := "**Expertise:**".toList

def audienceLbl : List Char := "**Target audience:**".toList

def summaryLbl : List Char := "**Activity summary:**".toList

def toneLbl : List Char := "**Personal tone:**".toList

def strengthsLbl : List Char := "**Strengths:**".toList

/-- A string-valued field: `match.group(1).strip()` when the label is found,
the empty default otherwise. -/
def textField (label : List Char) (t : List Char) : List Char :=
  match sectionFor label t with
  | some s => stripCh s
  | none => []

/-- A list-valued field: the section is stripped, split on commas, and each
non-empty trimmed item kept; empty default when the label is missing. -/
def listField (label : List Char) (t : List Char) : List (List Char) :=
  match sectionFor label t with
  | some s => commaItems (stripCh s)
  | none => []

/-- `parse_profile_text` from `openai_service.py`. -/
def parse_profile_text (t : List Char) : Profile where
  name := textField nameLbl t
  expertise := listField expertiseLbl t
  target_audience := listField audienceLbl t
  activity_summary := textField summaryLbl t
  personal_tone := textField toneLbl t
  strengths := listField strengthsLbl t

/-! ## `generate_speaker_profile` (openai_service.py, lines 13-95)

The `data` argument is the dict built by `create_profile`
(routers/profiles.py): the four keys are always present there, but the
embedding keeps a `missing` state so that payloads with omitted sources can
be expressed too.  A `null` state models a Python `None` value under the
key.  For the three URL sources the payload value is a dict that either has
a `processed_text` key (`some chunks`) or not (`none` — the error-marker
dicts the adapters return on failure).

The membership test `'processed_text' in data['youtube_data']` raises
`TypeError: argument of type 'NoneType' is not iterable` when the value is
`None`; the surrounding `try/except` turns this into the error dict
`{'error': str(e)}`.  This is modelled by `GenError.nullIteration`.
`GenError.noTextData` models `{'error': 'No text data to process'}`.

The OpenAI completion call is abstracted as a function `synth` from the
prompt to the response text; the Boolean in the result records whether it
was invoked. -/

inductive Field (α : Type) where
  | missing : Field α
  | null : Field α
  | val : α → Field α
deriving DecidableEq, Repr

structure SourceData where
  pdf_text : Field (List (List Char))
  youtube_data : Field (Option (List (List Char)))
  website_text : Field (Option (List (List Char)))
  linkedin_data : Field (Option (List (List Char)))

inductive GenError where
  | nullIteration : GenError
  | noTextData : GenError
deriving DecidableEq, Repr

/-- `for text_chunk in chunks: all_text += text_chunk + "\n\n"`. -/
def chunksText (chunks : List (List Char)) : List Char :=
  chunks.foldl (fun acc c => acc ++ c ++ [ '\n', '\n' ]) []

/-- The PDF contribution: guarded by `'pdf_text' in data and data['pdf_text']`,
so a missing key, a `None` value and an empty list all contribute nothing. -/
def pdfPart : Field (List (List Char)) → List Char
  | .missing => []
  | .null => []
  | .val chunks => if chunks = [] then [] else chunksText chunks

/-- The contribution of a URL source, guarded by
`'<key>' in data and 'processed_text' in data['<key>']`: a missing key is
skipped, a `None` value raises `TypeError`, a dict without `processed_text`
is skipped, and a dict with it contributes its chunks. -/
def sourcePart : Field (Option (List (List Char))) → Except GenError (List Char)
  | .missing => .ok []
  | .null => .error .nullIteration
  | .val none => .ok []
  | .val (some chunks) => .ok (chunksText chunks)

/-- The `all_text` accumulation of `generate_speaker_profile`, including the
`TypeError` paths. -/
def combinedText (d : SourceData) : Except GenError (List Char) := do
  let ty ← sourcePart d.youtube_data
  let tw ← sourcePart d.website_text
  let tl ← sourcePart d.linkedin_data
  pure (pdfPart d.pdf_text ++ ty ++ tw ++ tl)

/-- The prompt template around `all_text` (the f-string of lines 52-72). -/
def promptFor (allText : List Char) : List Char :=
  ("\nThe following is content extracted from a user's PDF documents, " ++
   "YouTube channel, website, and LinkedIn profile. Please create a " ++
   "profile for this person based on this. What to include:\n" ++
   "- Name (if applicable)\n- Key topic/expertise\n- Target audience\n" ++
   "- Personal branding tone\n- Activity summary\n" ++
   "- Strengths and differentiators\n\n[start text]\n").toList ++ allText ++
  ("\n[end text]\n\nPlease format your response using this template:\n" ++
   "**Name:** \n**Expertise:** \n**Target audience:** \n" ++
   "**Activity summary:** \n**Personal tone:** \n**Strengths:** \n").toList

/-- `generate_speaker_profile`, instrumented: the result (parsed profile or
error dict) together with a flag telling whether the completion call was
made. -/
def generate_speaker_profileI (synth : List Char → List Char)
    (d : SourceData) : Except GenError Profile × Bool :=
  match combinedText d with
  | .error e => (.error e, false)
  | .ok allText =>
    if stripCh allText = [] then (.error .noTextData, false)
    else (.ok (parse_profile_text (synth (promptFor allText))), true)

/-- `generate_speaker_profile` from `openai_service.py`. -/
def generate_speaker_profile (synth : List Char → List Char)
    (d : SourceData) : Except GenError Profile :=
  (generate_speaker_profileI synth d).1

/-! ## Basic lemmas about `strip` and `split` -/

theorem dropTrail_length_le (l : List Char) : (dropTrail l).length ≤ l.length := by
  simpa [dropTrail] using (List.dropWhile_sublist isSpaceCh (l := l.reverse)).length_le

theorem stripCh_length_le (l : List Char) : (stripCh l).length ≤ l.length :=
  le_trans (dropTrail_length_le _) (List.dropWhile_sublist _).length_le

theorem dropTrail_append_space {c : Char} (h : isSpaceCh c = true) (l : List Char) :
    dropTrail (l ++ [c]) = dropTrail l := by
  unfold dropTrail
  rw [show (l ++ [c]).reverse = c :: l.reverse by simp, List.dropWhile_cons_of_pos h]

theorem stripCh_append_space {c : Char} (h : isSpaceCh c = true) (l : List Char) :
    stripCh (l ++ [c]) = stripCh l := by
  unfold stripCh
  rcases h0 : l.dropWhile isSpaceCh with _ | ⟨d, ds⟩
  · have h1 : (l ++ [c]).dropWhile isSpaceCh = [] := by
      rw [List.dropWhile_append, h0]
      simp [h]
    rw [h1]
  · have h1 : (l ++ [c]).dropWhile isSpaceCh = l.dropWhile isSpaceCh ++ [c] := by
      rw [List.dropWhile_append, h0]
      simp
    rw [h1, dropTrail_append_space h, h0]

theorem all_space_strip_nil {l : List Char} (h : ∀ c ∈ l, isSpaceCh c = true) :
    stripCh l = [] := by
  have h1 : l.dropWhile isSpaceCh = [] := List.dropWhile_eq_nil_iff.mpr h
  simp [stripCh, h1, dropTrail]

theorem splitSep_ne_nil (sep : Char) (l : List Char) : splitSep sep l ≠ [] := by
  cases l with
  | nil => simp [splitSep]
  | cons c cs =>
    by_cases h : c = sep
    · simp [splitSep, h]
    · simp only [splitSep, if_neg h]
      rcases splitSep sep cs with _ | ⟨r, rs⟩ <;> simp

theorem splitNl_ne_nil (l : List Char) : splitNl l ≠ [] :=
  splitSep_ne_nil _ _

/-! ## Claim C2: chunking of the empty string -/

theorem chunkLoop_ne_nil (mc : Nat) (cur : List Char) (ps : List (List Char))
    (h : cur ≠ []) : chunkLoop mc cur ps ≠ [] := by
  induction ps generalizing cur with
  | nil => simp [chunkLoop, h]
  | cons p ps ih =>
    by_cases hb : cur.length + p.length > mc
    · simp only [chunkLoop, if_pos hb]
      intro hc
      exact ih (p ++ ['\n']) (by simp) (List.append_eq_nil.mp hc).2
    · simp only [chunkLoop, if_neg hb]
      exact ih _ (by simp)

theorem chunkLoop_nil_cons (mc : Nat) (p : List Char) (ps : List (List Char)) :
    chunkLoop mc [] (p :: ps) = chunkLoop mc (p ++ ['\n']) ps := by
  by_cases hb : ([] : List Char).length + p.length > mc <;> simp [chunkLoop, hb]

/-- Claim C2, counterexample: on the empty string `chunk_text` returns the
one-element list containing the empty chunk, not the empty list of chunks
that the claim demands. -/
theorem C2_counterexample :
    chunk_text [] 5 = [[]] ∧ chunk_text [] 5 ≠ ([] : List (List Char)) :=
  ⟨rfl, by simp [chunk_text]⟩

/-- Claim C2, amended: `chunk_text` never returns an empty sequence — on the
empty string it returns the single-element sequence containing the empty
chunk, and on any input the chunk sequence is non-empty. -/
theorem C2_amended : ∀ (text : List Char) (mt : Nat),
    chunk_text text mt ≠ [] ∧ chunk_text [] mt = [[]] := by
  intro text mt
  refine ⟨?_, by simp [chunk_text]⟩
  unfold chunk_text
  by_cases hlen : text.length ≤ mt * 4
  · simp [hlen]
  · simp only [if_neg hlen]
    rcases hsp : splitNl text with _ | ⟨p, ps⟩
    · exact absurd hsp (splitNl_ne_nil text)
    · rw [chunkLoop_nil_cons]
      exact chunkLoop_ne_nil _ _ _ (by simp)

/-! ## Claim C4: the PDF cascade's fallback trigger -/

/-- A primary-parser output with 202 characters after trimming but only two
non-whitespace characters. -/
def pdfSparse : PdfStrategies where
  pymupdf := 'a' :: (List.replicate 200 ' ' ++ ['b'])
  pdfplumber := List.replicate 200 'x'
  pypdf2 := []
  isScanned := false
  ocr := []

set_option maxRecDepth 8000 in
/-- Claim C4, counterexample: the fallback trigger is not "fewer than 100
non-whitespace characters".  On `pdfSparse` the primary output has only 2
non-whitespace characters, yet the second parser is not attempted (and the
cascade returns the primary output unchanged). -/
theorem C4_counterexample :
    ¬ (((extract_text_from_pdfI pdfSparse).2.1 = true) ↔
        (pdfSparse.pymupdf = [] ∨ nonWsCount pdfSparse.pymupdf < 100)) := by
  decide

/-- Claim C4, amended: the second parser is attempted iff the primary
output is empty or its whitespace-trimmed form is shorter than 100
characters (`len(text.strip()) < 100`, not a count of non-whitespace
characters); when the trimmed primary output reaches 100 characters the
cascade returns the primary output exactly and no fallback stage runs. -/
theorem C4_amended (s : PdfStrategies) :
    (((extract_text_from_pdfI s).2.1 = true) ↔
      (s.pymupdf = [] ∨ (stripCh s.pymupdf).length < 100)) ∧
    (100 ≤ (stripCh s.pymupdf).length →
      extract_text_from_pdfI s = (s.pymupdf, false, false, false)) := by
  have hiff : lowYield s.pymupdf = true ↔
      (s.pymupdf = [] ∨ (stripCh s.pymupdf).length < 100) := by
    simp [lowYield]
  constructor
  · by_cases h : lowYield s.pymupdf
    · rw [← hiff]
      simp only [h, iff_true]
      by_cases h2 : lowYield s.pdfplumber <;>
        by_cases h3 : lowYield s.pypdf2 <;>
        by_cases h4 : s.isScanned <;>
          simp [extract_text_from_pdfI, h, h2, h3, h4]
    · rw [← hiff]
      simp only [h, Bool.false_eq_true, iff_false]
      simp [extract_text_from_pdfI, h]
  · intro h100
    have h : lowYield s.pymupdf = false := by
      cases hval : lowYield s.pymupdf
      · rfl
      · rcases hiff.mp hval with h1 | h1
        · rw [h1] at h100
          simp [stripCh, dropTrail] at h100
        · omega
    simp [extract_text_from_pdfI, h]

/-- A primary-parser output that clearly meets the trimmed-length
threshold. -/
def pdfRich : PdfStrategies where
  pymupdf := List.replicate 150 'y'
  pdfplumber := []
  pypdf2 := []
  isScanned := true
  ocr := ['z']

set_option maxRecDepth 8000 in
/-- Witness for `C4_amended` at `pdfRich`. -/
theorem C4_witness :
    100 ≤ (stripCh pdfRich.pymupdf).length ∧
      extract_text_from_pdfI pdfRich = (pdfRich.pymupdf, false, false, false) :=
  ⟨by decide, (C4_amended pdfRich).2 (by decide)⟩

/-! ## Claim C1: a `None` source entry blocks present sources -/

/-- The payload `create_profile` builds when only PDFs are provided:
PDF chunks present, the three URL sources `None`. -/
def d_pdfOnly : SourceData where
  pdf_text := .val ["Some speaker content.".toList]
  youtube_data := .null
  website_text := .null
  linkedin_data := .null

/-- Claim C1 (code bug): with PDF chunks present and the YouTube entry
`None` — exactly what `create_profile` passes when no YouTube URL is given
or the adapter failed — `generate_speaker_profile` does not combine the PDF
chunks; the membership test `'processed_text' in data['youtube_data']`
raises `TypeError`, and the function returns the error dict, whatever the
synthesizer would have answered. -/
theorem C1_code_bug : ∀ synth : List Char → List Char,
    generate_speaker_profile synth d_pdfOnly = .error GenError.nullIteration :=
  fun _ => rfl

/-! ## Claim C5: all sources absent or blank -/

/-- All chunks of a list consist of whitespace only. -/
def blankChunks (cs : List (List Char)) : Prop :=
  ∀ c ∈ cs, ∀ ch ∈ c, isSpaceCh ch = true

/-- A URL-source payload entry that is absent (omitted from the mapping, as
the spec's `SourcePayload` prescribes for absent/failed sources), an
error-marker dict without `processed_text`, or chunks of whitespace only. -/
def srcAbsentOrBlank (f : Field (Option (List (List Char)))) : Prop :=
  f = .missing ∨ f = .val none ∨ ∃ cs, f = .val (some cs) ∧ blankChunks cs

/-- The PDF payload entry is absent, `None`, or whitespace-only chunks
(the empty chunk list is the `blankChunks []` case). -/
def pdfAbsentOrBlank (f : Field (List (List Char))) : Prop :=
  f = .missing ∨ f = .null ∨ ∃ cs, f = .val cs ∧ blankChunks cs

theorem chunksText_eq (cs : List (List Char)) :
    chunksText cs = (cs.map (fun c => c ++ [ '\n', '\n' ])).flatten := by
  suffices h : ∀ acc, cs.foldl (fun a c => a ++ c ++ [ '\n', '\n' ]) acc =
      acc ++ (cs.map (fun c => c ++ [ '\n', '\n' ])).flatten by
    simpa [chunksText] using h []
  induction cs with
  | nil => intro acc; simp
  | cons c cs ih =>
    intro acc
    simp only [List.foldl_cons]
    rw [ih]
    simp

theorem blankChunks_text {cs : List (List Char)} (h : blankChunks cs) :
    ∀ ch ∈ chunksText cs, isSpaceCh ch = true := by
  intro ch hch
  rw [chunksText_eq] at hch
  simp only [List.mem_flatten, List.mem_map] at hch
  obtain ⟨piece, ⟨c, hc, rfl⟩, hmem⟩ := hch
  rcases List.mem_append.mp hmem with hm | hm
  · exact h c hc ch hm
  · have hnl : ch = '\n' := by simpa using hm
    subst hnl
    decide

theorem pdfPart_blank {f : Field (List (List Char))} (h : pdfAbsentOrBlank f) :
    ∀ ch ∈ pdfPart f, isSpaceCh ch = true := by
  rcases h with h | h | ⟨cs, h, hb⟩ <;> subst h
  · simp [pdfPart]
  · simp [pdfPart]
  · by_cases hcs : cs = [] <;> simp only [pdfPart, hcs, if_pos, if_neg, if_true]
    · simp
    · simpa [hcs] using blankChunks_text hb

theorem sourcePart_blank {f : Field (Option (List (List Char)))}
    (h : srcAbsentOrBlank f) :
    ∃ t, sourcePart f = .ok t ∧ ∀ ch ∈ t, isSpaceCh ch = true := by
  rcases h with h | h | ⟨cs, h, hb⟩ <;> subst h
  · exact ⟨[], rfl, by simp⟩
  · exact ⟨[], rfl, by simp⟩
  · exact ⟨chunksText cs, rfl, blankChunks_text hb⟩

/-- Claim C5: when every source is absent from the payload, an
error-marker entry, or whitespace-only chunks, `generate_speaker_profile`
returns the explicit `{'error': 'No text data to process'}` result and the
completion call is never made (the `false` flag), for every synthesizer. -/
theorem C5_no_content (synth : List Char → List Char) (d : SourceData)
    (hp : pdfAbsentOrBlank d.pdf_text) (hy : srcAbsentOrBlank d.youtube_data)
    (hw : srcAbsentOrBlank d.website_text)
    (hl : srcAbsentOrBlank d.linkedin_data) :
    generate_speaker_profileI synth d = (.error GenError.noTextData, false) := by
  obtain ⟨ty, hy1, hy2⟩ := sourcePart_blank hy
  obtain ⟨tw, hw1, hw2⟩ := sourcePart_blank hw
  obtain ⟨tl, hl1, hl2⟩ := sourcePart_blank hl
  have hcomb : combinedText d = .ok (pdfPart d.pdf_text ++ ty ++ tw ++ tl) := by
    simp [combinedText, hy1, hw1, hl1, Bind.bind, Except.bind, Pure.pure,
      Except.pure]
  have hall : ∀ ch ∈ pdfPart d.pdf_text ++ ty ++ tw ++ tl, isSpaceCh ch = true := by
    intro ch hch
    simp only [List.mem_append] at hch
    rcases hch with ((hc | hc) | hc) | hc
    · exact pdfPart_blank hp ch hc
    · exact hy2 ch hc
    · exact hw2 ch hc
    · exact hl2 ch hc
  rw [generate_speaker_profileI, hcomb]
  have hz : stripCh (pdfPart d.pdf_text ++ (ty ++ (tw ++ tl))) = [] := by
    apply all_space_strip_nil
    intro ch hch
    exact hall ch (by simpa [List.append_assoc] using hch)
  simp [hz]

/-- The payload with every source key absent. -/
def d_allMissing : SourceData :=
  ⟨.missing, .missing, .missing, .missing⟩

/-- Witness for `C5_no_content` at the all-absent payload. -/
theorem C5_witness :
    generate_speaker_profileI (fun _ => []) d_allMissing =
      (.error GenError.noTextData, false) :=
  C5_no_content _ _ (Or.inl rfl) (Or.inl rfl) (Or.inl rfl) (Or.inl rfl)

/-! ## Lemmas about `dedupAux` -/

theorem dedupAux_sublist : ∀ (ps : List (List Char)) (seen : List (List Char)),
    List.Sublist (dedupAux seen ps) ps := by
  intro ps
  induction ps with
  | nil => intro seen; simp [dedupAux]
  | cons p ps ih =>
    intro seen
    by_cases h : p ∈ seen
    · simp only [dedupAux, if_pos h]
      exact (ih seen).cons p
    · simp only [dedupAux, if_neg h]
      exact (ih (p :: seen)).cons₂ p

theorem dedupAux_disjoint : ∀ (ps seen : List (List Char)) (x : List Char),
    x ∈ dedupAux seen ps → x ∉ seen := by
  intro ps
  induction ps with
  | nil => intro seen x hx; simp [dedupAux] at hx
  | cons p ps ih =>
    intro seen x hx
    by_cases h : p ∈ seen
    · rw [show dedupAux seen (p :: ps) = dedupAux seen ps by
        simp only [dedupAux, if_pos h]] at hx
      exact ih seen x hx
    · rw [show dedupAux seen (p :: ps) = p :: dedupAux (p :: seen) ps by
        simp only [dedupAux, if_neg h]] at hx
      rcases List.mem_cons.mp hx with rfl | hx'
      · exact h
      · intro hseen
        exact ih (p :: seen) x hx' (List.mem_cons_of_mem _ hseen)

theorem dedupAux_nodup : ∀ (ps seen : List (List Char)),
    (dedupAux seen ps).Nodup := by
  intro ps
  induction ps with
  | nil => intro seen; simp [dedupAux]
  | cons p ps ih =>
    intro seen
    by_cases h : p ∈ seen
    · simp only [dedupAux, if_pos h]
      exact ih seen
    · simp only [dedupAux, if_neg h]
      refine List.nodup_cons.mpr ⟨?_, ih (p :: seen)⟩
      intro hmem
      exact dedupAux_disjoint ps (p :: seen) p hmem (List.mem_cons_self p seen)

theorem mem_dedupAux_of : ∀ (ps seen : List (List Char)) (x : List Char),
    x ∈ ps → x ∉ seen → x ∈ dedupAux seen ps := by
  intro ps
  induction ps with
  | nil => intro seen x hx _; simp at hx
  | cons p ps ih =>
    intro seen x hx hseen
    by_cases h : p ∈ seen
    · simp only [dedupAux, if_pos h]
      rcases List.mem_cons.mp hx with rfl | hx'
      · exact absurd h hseen
      · exact ih seen x hx' hseen
    · simp only [dedupAux, if_neg h]
      rcases List.mem_cons.mp hx with rfl | hx'
      · exact List.mem_cons_self _ _
      · by_cases hxp : x = p
        · subst hxp; exact List.mem_cons_self _ _
        · exact List.mem_cons_of_mem _
            (ih (p :: seen) x hx' (by simp [hxp, hseen]))

/-- Index of the first occurrence of a paragraph in a list (length of the
list when absent). -/
def firstIdx (x : List Char) : List (List Char) → Nat
  | [] => 0
  | q :: qs => if q = x then 0 else firstIdx x qs + 1

theorem dedupAux_pairwise : ∀ (ps seen : List (List Char)),
    (dedupAux seen ps).Pairwise (fun a b => firstIdx a ps < firstIdx b ps) := by
  intro ps
  induction ps with
  | nil => intro seen; simp [dedupAux]
  | cons p ps ih =>
    intro seen
    by_cases h : p ∈ seen
    · simp only [dedupAux, if_pos h]
      refine (ih seen).imp_of_mem ?_
      intro a b ha hb hab
      have hap : p ≠ a := fun he => dedupAux_disjoint ps seen a ha (he ▸ h)
      have hbp : p ≠ b := fun he => dedupAux_disjoint ps seen b hb (he ▸ h)
      simp only [firstIdx, if_neg hap, if_neg hbp]
      omega
    · simp only [dedupAux, if_neg h]
      refine List.pairwise_cons.mpr ⟨?_, ?_⟩
      · intro b hb
        have hbp : p ≠ b := fun he =>
          dedupAux_disjoint ps (p :: seen) b hb (he ▸ List.mem_cons_self p seen)
        rw [show firstIdx p (p :: ps) = 0 by simp [firstIdx]]
        simp only [firstIdx, if_neg hbp]
        omega
      · refine (ih (p :: seen)).imp_of_mem ?_
        intro a b ha hb hab
        have hap : p ≠ a := fun he =>
          dedupAux_disjoint ps (p :: seen) a ha (he ▸ List.mem_cons_self p seen)
        have hbp : p ≠ b := fun he =>
          dedupAux_disjoint ps (p :: seen) b hb (he ▸ List.mem_cons_self p seen)
        simp only [firstIdx, if_neg hap, if_neg hbp]
        omega

theorem count_one_of_nodup_mem : ∀ {L : List (List Char)} {p : List Char},
    L.Nodup → p ∈ L → L.count p = 1 := by
  intro L
  induction L with
  | nil => intro p _ hmem; simp at hmem
  | cons q L ih =>
    intro p hnd hmem
    rcases List.mem_cons.mp hmem with rfl | hmem'
    · rw [List.count_cons_self]
      have hz : L.count p = 0 :=
        List.count_eq_zero.mpr (List.nodup_cons.mp hnd).1
      omega
    · have hq : p ≠ q := fun he => (List.nodup_cons.mp hnd).1 (he ▸ hmem')
      rw [List.count_cons_of_ne hq]
      exact ih (List.nodup_cons.mp hnd).2 hmem'

theorem dedupAux_eq_self : ∀ (L seen : List (List Char)), L.Nodup →
    (∀ x ∈ L, x ∉ seen) → dedupAux seen L = L := by
  intro L
  induction L with
  | nil => intro seen _ _; rfl
  | cons p ps ih =>
    intro seen hnd hdisj
    have hp : p ∉ seen := hdisj p (List.mem_cons_self _ _)
    simp only [dedupAux, if_neg hp]
    congr 1
    refine ih (p :: seen) (List.nodup_cons.mp hnd).2 ?_
    intro x hx
    simp only [List.mem_cons, not_or]
    exact ⟨fun he => (List.nodup_cons.mp hnd).1 (he ▸ hx),
      hdisj x (List.mem_cons_of_mem _ hx)⟩

/-! ## Lemmas about `split` and `join` -/

theorem splitSep_append_sep (sep : Char) : ∀ (a t : List Char), sep ∉ a →
    splitSep sep (a ++ sep :: t) = a :: splitSep sep t := by
  intro a
  induction a with
  | nil => intro t _; simp [splitSep]
  | cons c a' ih =>
    intro t hnm
    have hc : ¬(c = sep) := fun he => hnm (by simp [he])
    have hih := ih t (fun hm => hnm (List.mem_cons_of_mem _ hm))
    show splitSep sep (c :: (a' ++ sep :: t)) = (c :: a') :: splitSep sep t
    simp only [splitSep, if_neg hc]
    rw [hih]

theorem splitSep_eq_single (sep : Char) : ∀ (a : List Char), sep ∉ a →
    splitSep sep a = [a] := by
  intro a
  induction a with
  | nil => intro _; rfl
  | cons c a' ih =>
    intro hnm
    have hc : ¬(c = sep) := fun he => hnm (by simp [he])
    simp only [splitSep, if_neg hc]
    rw [ih (fun hm => hnm (List.mem_cons_of_mem _ hm))]

theorem splitNl_joinNl : ∀ (L : List (List Char)), L ≠ [] →
    (∀ p ∈ L, '\n' ∉ p) → splitNl (joinNl L) = L := by
  intro L
  induction L with
  | nil => intro h _; exact absurd rfl h
  | cons p L ih =>
    intro _ hnl
    rcases L with _ | ⟨q, L'⟩
    · exact splitSep_eq_single '\n' p (hnl p (by simp))
    · rw [show joinNl (p :: q :: L') = p ++ '\n' :: joinNl (q :: L') from rfl]
      show splitSep '\n' (p ++ '\n' :: joinNl (q :: L')) = p :: q :: L'
      rw [splitSep_append_sep '\n' p _ (hnl p (by simp))]
      congr 1
      exact ih (by simp) (fun r hr => hnl r (List.mem_cons_of_mem _ hr))

theorem splitSep_sep_not_mem (sep : Char) : ∀ (l : List Char),
    ∀ p ∈ splitSep sep l, sep ∉ p := by
  intro l
  induction l with
  | nil =>
    intro p hp
    have hp' : p = [] := by simpa [splitSep] using hp
    simp [hp']
  | cons c cs ih =>
    intro p hp
    by_cases hc : c = sep
    · rw [show splitSep sep (c :: cs) = [] :: splitSep sep cs by
        simp only [splitSep, if_pos hc]] at hp
      rcases List.mem_cons.mp hp with rfl | hp'
      · simp
      · exact ih p hp'
    · simp only [splitSep, if_neg hc] at hp
      rcases hsp : splitSep sep cs with _ | ⟨r, rs⟩
      · rw [hsp] at hp
        have hp' : p = [c] := by simpa using hp
        subst hp'
        simp only [List.mem_singleton]
        exact fun he => hc he.symm
      · rw [hsp] at hp
        rcases List.mem_cons.mp hp with rfl | hp'
        · intro hmem
          rcases List.mem_cons.mp hmem with he | hmem'
          · exact hc he.symm
          · exact ih r (by rw [hsp]; exact List.mem_cons_self _ _) hmem'
        · exact ih p (by rw [hsp]; exact List.mem_cons_of_mem _ hp')

/-! ## `strip` is idempotent -/

theorem dropTrail_front (l : List Char) : dropTrail l <+: l := by
  obtain ⟨t, ht⟩ := List.dropWhile_suffix (l := l.reverse) isSpaceCh
  refine ⟨t.reverse, ?_⟩
  rw [dropTrail, ← List.reverse_append, ht, List.reverse_reverse]

theorem stripCh_sublist (l : List Char) : List.Sublist (stripCh l) l :=
  ((dropTrail_front _).sublist).trans (List.dropWhile_sublist _)

theorem dropWhile_eq_cons_head {p : Char → Bool} :
    ∀ {X : List Char} {d : Char} {ds : List Char},
    X.dropWhile p = d :: ds → p d = false := by
  intro X
  induction X with
  | nil => intro d ds h; simp at h
  | cons x xs ih =>
    intro d ds h
    by_cases hx : p x
    · rw [List.dropWhile_cons_of_pos hx] at h
      exact ih h
    · rw [List.dropWhile_cons_of_neg hx] at h
      injection h with h1 _
      subst h1
      cases hpx : p x
      · rfl
      · exact absurd hpx hx

theorem stripCh_rev (l : List Char) :
    (stripCh l).reverse = (l.dropWhile isSpaceCh).reverse.dropWhile isSpaceCh := by
  simp [stripCh, dropTrail]

theorem stripCh_head_ns : ∀ {l : List Char} {c : Char} {cs : List Char},
    stripCh l = c :: cs → isSpaceCh c = false := by
  intro l c cs h
  obtain ⟨t, ht⟩ := dropTrail_front (l.dropWhile isSpaceCh)
  have hm : l.dropWhile isSpaceCh = c :: (cs ++ t) := by
    rw [← ht, show dropTrail (l.dropWhile isSpaceCh) = c :: cs from h]
    simp
  exact dropWhile_eq_cons_head hm

theorem stripCh_last_ns : ∀ {l : List Char} {c : Char} {cs : List Char},
    (stripCh l).reverse = c :: cs → isSpaceCh c = false := by
  intro l c cs h
  rw [stripCh_rev] at h
  exact dropWhile_eq_cons_head h

theorem stripCh_stripCh (l : List Char) : stripCh (stripCh l) = stripCh l := by
  rcases h : stripCh l with _ | ⟨c, cs⟩
  · rfl
  · have hc : isSpaceCh c = false := stripCh_head_ns h
    have hdw : (c :: cs).dropWhile isSpaceCh = c :: cs :=
      List.dropWhile_cons_of_neg (by simp [hc])
    rcases hr : (c :: cs).reverse with _ | ⟨d, ds⟩
    · exact absurd hr (by simp)
    · have hd : isSpaceCh d = false := stripCh_last_ns (by rw [h, hr])
      have hdt : dropTrail (c :: cs) = c :: cs := by
        rw [dropTrail, hr, List.dropWhile_cons_of_neg (by simp [hd]), ← hr,
          List.reverse_reverse]
      show dropTrail ((c :: cs).dropWhile isSpaceCh) = c :: cs
      rw [hdw, hdt]

/-! ## Facts about `trimmedPars` -/

theorem trimmedPars_no_nl (text : List Char) :
    ∀ p ∈ trimmedPars text, '\n' ∉ p := by
  intro p hp
  simp only [trimmedPars, List.mem_filter, List.mem_map] at hp
  obtain ⟨⟨q, hq, rfl⟩, _⟩ := hp
  intro hmem
  exact splitSep_sep_not_mem '\n' text q hq ((stripCh_sublist q).subset hmem)

theorem trimmedPars_ne (text : List Char) :
    ∀ p ∈ trimmedPars text, p ≠ [] := by
  intro p hp
  have h := (List.mem_filter.mp hp).2
  simpa using h

theorem trimmedPars_stripped (text : List Char) :
    ∀ p ∈ trimmedPars text, stripCh p = p := by
  intro p hp
  simp only [trimmedPars, List.mem_filter, List.mem_map] at hp
  obtain ⟨⟨q, hq, rfl⟩, _⟩ := hp
  exact stripCh_stripCh q

/-! ## Claims C7 and C10: deduplication -/

/-- Claim C7, counterexample: on the empty input, `remove_duplicates`
returns the empty string, whose newline-split paragraph sequence is `[""]`;
this is not a subsequence of the input's trimmed non-empty paragraph
sequence, which is empty. -/
theorem C7_counterexample :
    ¬ List.Sublist (splitNl (remove_duplicates [])) (trimmedPars ([] : List Char)) := by
  decide

/-- The deduplication example from the spec. -/
def helloText : List Char := "Hello world.\n\nHello world.\n\nGoodbye.".toList

/-- Claim C7, amended: for every input with at least one non-empty trimmed
paragraph, the newline-split paragraph sequence of `remove_duplicates`'s
output is a duplicate-free subsequence of the trimmed non-empty input
paragraph sequence, ordered by first occurrence, with every distinct
non-empty trimmed input paragraph appearing exactly once; and the
`"Hello world."` example behaves as stated.  (For inputs with no non-empty
trimmed paragraph the output is the empty string, whose newline-split is
the singleton empty paragraph.) -/
theorem C7_amended :
    (∀ text : List Char, trimmedPars text ≠ [] →
      List.Sublist (splitNl (remove_duplicates text)) (trimmedPars text) ∧
      (splitNl (remove_duplicates text)).Nodup ∧
      (splitNl (remove_duplicates text)).Pairwise
        (fun a b => firstIdx a (trimmedPars text) < firstIdx b (trimmedPars text)) ∧
      ∀ p ∈ trimmedPars text, (splitNl (remove_duplicates text)).count p = 1) ∧
    remove_duplicates helloText = "Hello world.\nGoodbye.".toList := by
  constructor
  · intro text hne
    have hkey : splitNl (remove_duplicates text) =
        dedupAux [] (trimmedPars text) := by
      apply splitNl_joinNl
      · rcases hp : trimmedPars text with _ | ⟨p, ps⟩
        · exact absurd hp hne
        · simp [hp, dedupAux]
      · intro p hp
        exact trimmedPars_no_nl text p ((dedupAux_sublist _ _).subset hp)
    rw [hkey]
    refine ⟨dedupAux_sublist _ _, dedupAux_nodup _ _, dedupAux_pairwise _ _, ?_⟩
    intro p hp
    exact count_one_of_nodup_mem (dedupAux_nodup _ _)
      (mem_dedupAux_of _ _ p hp (List.not_mem_nil p))
  · decide

set_option maxRecDepth 4000 in
/-- Witness for `C7_amended` at the spec's `"Hello world."` example. -/
theorem C7_witness :
    List.Sublist (splitNl (remove_duplicates helloText)) (trimmedPars helloText) ∧
      (splitNl (remove_duplicates helloText)).Nodup ∧
      (splitNl (remove_duplicates helloText)).Pairwise
        (fun a b => firstIdx a (trimmedPars helloText) <
          firstIdx b (trimmedPars helloText)) ∧
      ∀ p ∈ trimmedPars helloText,
        (splitNl (remove_duplicates helloText)).count p = 1 :=
  C7_amended.1 helloText (by decide)

/-- A newline-joined list of distinct, trimmed, non-empty,
newline-free paragraphs is a fixed point of `remove_duplicates`. -/
theorem rd_fixed : ∀ {D : List (List Char)}, (∀ p ∈ D, '\n' ∉ p) →
    (∀ p ∈ D, p ≠ []) → (∀ p ∈ D, stripCh p = p) → D.Nodup →
    remove_duplicates (joinNl D) = joinNl D := by
  intro D hnl hne hs hnd
  rcases D with _ | ⟨d0, ds⟩
  · rfl
  · have hsplit : splitNl (joinNl (d0 :: ds)) = d0 :: ds :=
      splitNl_joinNl _ (by simp) hnl
    have htp : trimmedPars (joinNl (d0 :: ds)) = d0 :: ds := by
      unfold trimmedPars
      rw [hsplit]
      have hmap : List.map stripCh (d0 :: ds) = d0 :: ds := by
        calc List.map stripCh (d0 :: ds) = List.map id (d0 :: ds) :=
              List.map_congr_left (fun a ha => hs a ha)
          _ = d0 :: ds := List.map_id _
      rw [hmap]
      exact List.filter_eq_self.mpr (fun a ha => by simp [hne a ha])
    show joinNl (dedupAux [] (trimmedPars (joinNl (d0 :: ds)))) =
      joinNl (d0 :: ds)
    rw [htp, dedupAux_eq_self _ _ hnd (fun x _ => by simp)]

/-- Claim C10: `remove_duplicates` is idempotent. -/
theorem C10_idempotent (text : List Char) :
    remove_duplicates (remove_duplicates text) = remove_duplicates text := by
  have h1 := dedupAux_sublist (trimmedPars text) []
  show remove_duplicates (joinNl (dedupAux [] (trimmedPars text))) =
    joinNl (dedupAux [] (trimmedPars text))
  refine rd_fixed ?_ ?_ ?_ (dedupAux_nodup _ _)
  · intro p hp; exact trimmedPars_no_nl text p (h1.subset hp)
  · intro p hp; exact trimmedPars_ne text p (h1.subset hp)
  · intro p hp; exact trimmedPars_stripped text p (h1.subset hp)

/-! ## Claim C3: the chunk budget -/

/-- Every chunk the loop emits is either the trimmed current buffer or the
trimmed form of a remaining paragraph that itself exceeds the budget;
in particular chunks built from more than one paragraph never exceed it. -/
theorem chunkLoop_oversized : ∀ (ps : List (List Char)) (cur : List Char)
    (mc : Nat), ∀ c ∈ chunkLoop mc cur ps, mc < c.length →
    (c = stripCh cur ∧ mc < (stripCh cur).length) ∨
      ∃ p ∈ ps, c = stripCh p ∧ mc < p.length := by
  intro ps
  induction ps with
  | nil =>
    intro cur mc c hc hlen
    by_cases hcur : cur = []
    · simp [chunkLoop, hcur] at hc
    · simp only [chunkLoop, if_neg hcur] at hc
      have hc' : c = stripCh cur := by simpa using hc
      exact Or.inl ⟨hc', hc' ▸ hlen⟩
  | cons p ps ih =>
    intro cur mc c hc hlen
    by_cases hb : cur.length + p.length > mc
    · simp only [chunkLoop, if_pos hb, List.mem_append] at hc
      rcases hc with hc | hc
      · by_cases hcur : cur = []
        · simp [hcur] at hc
        · rw [if_neg hcur] at hc
          have hc' : c = stripCh cur := by simpa using hc
          exact Or.inl ⟨hc', hc' ▸ hlen⟩
      · rcases ih _ _ c hc hlen with ⟨h1, h2⟩ | ⟨q, hq, h3, h4⟩
        · rw [stripCh_append_space (by decide) p] at h1 h2
          refine Or.inr ⟨p, List.mem_cons_self _ _, h1, ?_⟩
          exact lt_of_lt_of_le h2 (stripCh_length_le p)
        · exact Or.inr ⟨q, List.mem_cons_of_mem _ hq, h3, h4⟩
    · simp only [chunkLoop, if_neg hb] at hc
      rcases ih _ _ c hc hlen with ⟨h1, h2⟩ | ⟨q, hq, h3, h4⟩
      · exfalso
        rw [show cur ++ p ++ ['\n'] = (cur ++ p) ++ ['\n'] from by
          simp [List.append_assoc]] at h2
        rw [stripCh_append_space (by decide) (cur ++ p)] at h2
        have hle : (stripCh (cur ++ p)).length ≤ cur.length + p.length := by
          have := stripCh_length_le (cur ++ p)
          simpa using this
        omega
      · exact Or.inr ⟨q, List.mem_cons_of_mem _ hq, h3, h4⟩

/-- A text with two paragraphs, each of 50 characters. -/
def chunkEx : List Char :=
  List.replicate 50 'A' ++ '\n' :: List.replicate 50 'B'

set_option maxRecDepth 8000 in
/-- Claim C3, counterexample: with `max_tokens = 10` (`max_chars = 40`),
chunking a text of two 50-character paragraphs produces two chunks of 50
characters each — two chunks exceed the budget in a single call, not at
most one. -/
theorem C3_counterexample :
    ¬ (((chunk_text chunkEx 10).filter (fun c => 40 < c.length)).length ≤ 1) := by
  decide

/-- Claim C3, amended: any chunk longer than `max_tokens * 4` characters is
the trimmed form of a single input paragraph whose own length exceeds
`max_tokens * 4`; so chunks that combine several paragraphs respect the
budget, but there can be one oversized chunk for every oversized input
paragraph, not at most one per call. -/
theorem C3_amended : ∀ (text : List Char) (mt : Nat), ∀ c ∈ chunk_text text mt,
    mt * 4 < c.length →
    ∃ p ∈ splitNl text, c = stripCh p ∧ mt * 4 < p.length := by
  intro text mt c hc hlen
  simp only [chunk_text] at hc
  by_cases hfits : text.length ≤ mt * 4
  · rw [if_pos hfits] at hc
    have hct : c = text := by simpa using hc
    subst hct
    omega
  · rw [if_neg hfits] at hc
    rcases chunkLoop_oversized _ _ _ c hc hlen with ⟨_, h2⟩ | ⟨p, hp, h3, h4⟩
    · rw [show stripCh [] = [] from rfl] at h2
      simp at h2
    · exact ⟨p, hp, h3, h4⟩

set_option maxRecDepth 8000 in
/-- Witness for `C3_amended`: the first oversized chunk of the two-paragraph
example is the trimmed form of the first 50-character paragraph. -/
theorem C3_witness :
    List.replicate 50 'A' ∈ chunk_text chunkEx 10 ∧
      10 * 4 < (List.replicate 50 'A').length ∧
      ∃ p ∈ splitNl chunkEx,
        List.replicate 50 'A' = stripCh p ∧ 10 * 4 < p.length :=
  ⟨by decide, by decide,
    C3_amended chunkEx 10 (List.replicate 50 'A') (by decide) (by decide)⟩

/-! ## Claim C8: chunking loses no content -/

theorem joinNl_cons {L : List (List Char)} (h : L ≠ []) (a : List Char) :
    joinNl (a :: L) = a ++ '\n' :: joinNl L := by
  rcases L with _ | ⟨q, rest⟩
  · exact absurd rfl h
  · rfl

theorem joinNl_append : ∀ {A B : List (List Char)}, A ≠ [] → B ≠ [] →
    joinNl (A ++ B) = joinNl A ++ '\n' :: joinNl B := by
  intro A
  induction A with
  | nil => intro B h _; exact absurd rfl h
  | cons a A' ih =>
    intro B _ hB
    rcases A' with _ | ⟨a', A''⟩
    · rw [show ([a] ++ B) = a :: B from rfl, joinNl_cons hB]
      rfl
    · rw [show ((a :: a' :: A'') ++ B) = a :: ((a' :: A'') ++ B) from rfl]
      rw [joinNl_cons (by simp), ih (by simp) hB,
        joinNl_cons (show (a' :: A'') ≠ [] from by simp)]
      simp

theorem joinNl_ne_nil {L : List (List Char)} (hL : L ≠ [])
    (h : ∀ p ∈ L, p ≠ []) : joinNl L ≠ [] := by
  rcases L with _ | ⟨p, rest⟩
  · exact absurd rfl hL
  · rcases rest with _ | ⟨q, rest'⟩
    · exact h p (by simp)
    · rw [joinNl_cons (by simp)]
      intro hcontra
      rcases List.append_eq_nil.mp hcontra with ⟨_, h2⟩
      simp at h2

theorem dropTrail_append_ne {X Y : List Char} (h : dropTrail Y ≠ []) :
    dropTrail (X ++ Y) = X ++ dropTrail Y := by
  have h' : Y.reverse.dropWhile isSpaceCh ≠ [] := by
    intro hc
    exact h (by simp [dropTrail, hc])
  rw [dropTrail, List.reverse_append, List.dropWhile_append,
    if_neg (by simpa [List.isEmpty_iff] using h'), List.reverse_append,
    List.reverse_reverse]
  rfl

/-- A non-empty stripped list starts with a non-whitespace character. -/
theorem exists_head_ns {l : List Char} (hne : l ≠ []) (hs : stripCh l = l) :
    ∃ c cs, l = c :: cs ∧ isSpaceCh c = false := by
  cases l with
  | nil => exact absurd rfl hne
  | cons c cs => exact ⟨c, cs, rfl, stripCh_head_ns hs⟩

/-- A newline-join of non-empty stripped paragraphs is itself stripped. -/
theorem strip_joinNl_good : ∀ (pre : List (List Char)), pre ≠ [] →
    (∀ p ∈ pre, p ≠ [] ∧ stripCh p = p) →
    stripCh (joinNl pre) = joinNl pre := by
  intro pre
  induction pre with
  | nil => intro h _; exact absurd rfl h
  | cons p pre' ih =>
    intro _ hgood
    rcases pre' with _ | ⟨q, rest⟩
    · exact (hgood p (by simp)).2
    · have hJ : stripCh (joinNl (q :: rest)) = joinNl (q :: rest) :=
        ih (by simp) (fun r hr => hgood r (List.mem_cons_of_mem _ hr))
      have hJne : joinNl (q :: rest) ≠ [] :=
        joinNl_ne_nil (by simp)
          (fun r hr => (hgood r (List.mem_cons_of_mem _ hr)).1)
      obtain ⟨c, cs, hp, hcns⟩ :=
        exists_head_ns (hgood p (by simp)).1 (hgood p (by simp)).2
      obtain ⟨d, ds, hq2, hdns⟩ := exists_head_ns hJne hJ
      rw [joinNl_cons (by simp)]
      -- the leading `dropWhile` is the identity: the head of `p` is not
      -- whitespace
      have hdw : (p ++ '\n' :: joinNl (q :: rest)).dropWhile isSpaceCh =
          p ++ '\n' :: joinNl (q :: rest) := by
        rw [hp]
        exact List.dropWhile_cons_of_neg (by simp [hcns])
      -- the trailing `dropWhile` is the identity: the tail block is stripped
      have hJhead : (joinNl (q :: rest)).dropWhile isSpaceCh =
          joinNl (q :: rest) := by
        rw [hq2]
        exact List.dropWhile_cons_of_neg (by simp [hdns])
      have hdt : dropTrail (joinNl (q :: rest)) = joinNl (q :: rest) := by
        have h2 : stripCh (joinNl (q :: rest)) =
            dropTrail (joinNl (q :: rest)) := by
          rw [stripCh, hJhead]
        rw [← h2, hJ]
      rw [stripCh, hdw,
        show p ++ '\n' :: joinNl (q :: rest) =
          (p ++ ['\n']) ++ joinNl (q :: rest) from by simp,
        dropTrail_append_ne (by rw [hdt]; exact hJne), hdt]

/-- The chunk loop, started on a buffer holding the paragraphs `pre`,
reproduces all paragraphs: joining its chunks with newlines gives
exactly the newline-join of `pre ++ ps`. -/
theorem chunkLoop_join : ∀ (ps pre : List (List Char)) (mc : Nat),
    pre ≠ [] → (∀ p ∈ pre, p ≠ [] ∧ stripCh p = p) →
    (∀ p ∈ ps, p ≠ [] ∧ stripCh p = p) →
    joinNl (chunkLoop mc (joinNl pre ++ ['\n']) ps) = joinNl (pre ++ ps) := by
  intro ps
  induction ps with
  | nil =>
    intro pre mc hne hgood _
    have hcur : joinNl pre ++ ['\n'] ≠ [] := by simp
    simp only [chunkLoop, if_neg hcur]
    rw [stripCh_append_space (by decide), strip_joinNl_good pre hne hgood,
      List.append_nil]
    rfl
  | cons p ps ih =>
    intro pre mc hne hgood hgoodps
    have hcur : joinNl pre ++ ['\n'] ≠ [] := by simp
    have hpgood := hgoodps p (by simp)
    by_cases hb : (joinNl pre ++ ['\n']).length + p.length > mc
    · simp only [chunkLoop, if_pos hb, if_neg hcur, List.singleton_append]
      have hrec : joinNl (chunkLoop mc (p ++ ['\n']) ps) = joinNl (p :: ps) :=
        ih [p] mc (by simp) (by simpa using hpgood)
          (fun r hr => hgoodps r (List.mem_cons_of_mem _ hr))
      have hrecne : chunkLoop mc (p ++ ['\n']) ps ≠ [] :=
        chunkLoop_ne_nil _ _ _ (by simp)
      rw [joinNl_cons hrecne, hrec,
        stripCh_append_space (by decide), strip_joinNl_good pre hne hgood,
        joinNl_append hne (by simp)]
    · simp only [chunkLoop, if_neg hb]
      have hgood2 : ∀ r ∈ pre ++ [p], r ≠ [] ∧ stripCh r = r := by
        intro r hr
        rcases List.mem_append.mp hr with hr' | hr'
        · exact hgood r hr'
        · have hrp : r = p := by simpa using hr'
          subst hrp
          exact hpgood
      have heq : (joinNl pre ++ ['\n']) ++ p ++ ['\n'] =
          joinNl (pre ++ [p]) ++ ['\n'] := by
        rw [joinNl_append hne (show ([p] : List (List Char)) ≠ [] from by simp)]
        simp [joinNl]
      rw [heq, ih (pre ++ [p]) mc (by simp) hgood2
        (fun r hr => hgoodps r (List.mem_cons_of_mem _ hr)),
        show (pre ++ [p]) ++ ps = pre ++ p :: ps from by simp]

/-- Claim C8: for any output of `remove_duplicates` and any `max_tokens`,
joining the chunks of `chunk_text` with newlines and splitting on newlines
reproduces the text's paragraph sequence exactly, in order.  (In fact the
newline-join of the chunks is the text itself.) -/
theorem C8_reconstruction (t : List Char) (mt : Nat) :
    splitNl (joinNl (chunk_text (remove_duplicates t) mt)) =
      splitNl (remove_duplicates t) := by
  have hD := dedupAux_sublist (trimmedPars t) []
  suffices h : joinNl (chunk_text (remove_duplicates t) mt) =
      remove_duplicates t by rw [h]
  by_cases hfit : (remove_duplicates t).length ≤ mt * 4
  · simp [chunk_text, hfit, joinNl]
  · simp only [chunk_text, if_neg hfit]
    rcases hDD : dedupAux [] (trimmedPars t) with _ | ⟨d0, ds⟩
    · exfalso
      apply hfit
      show (joinNl (dedupAux [] (trimmedPars t))).length ≤ mt * 4
      rw [hDD]
      simp [joinNl]
    · have hgood : ∀ p ∈ d0 :: ds, p ≠ [] ∧ stripCh p = p := by
        intro p hp
        have hp' : p ∈ dedupAux [] (trimmedPars t) := by rw [hDD]; exact hp
        exact ⟨trimmedPars_ne t p (hD.subset hp'),
          trimmedPars_stripped t p (hD.subset hp')⟩
      have hsp : splitNl (remove_duplicates t) = d0 :: ds := by
        show splitNl (joinNl (dedupAux [] (trimmedPars t))) = d0 :: ds
        rw [hDD]
        refine splitNl_joinNl _ (by simp) ?_
        intro p hp
        have hp' : p ∈ dedupAux [] (trimmedPars t) := by rw [hDD]; exact hp
        exact trimmedPars_no_nl t p (hD.subset hp')
      rw [hsp, chunkLoop_nil_cons]
      rw [show (d0 ++ ['\n'] : List Char) = joinNl [d0] ++ ['\n'] from rfl]
      rw [chunkLoop_join ds [d0] (mt * 4) (by simp)
        (by simpa using hgood d0 (by simp))
        (fun r hr => hgood r (List.mem_cons_of_mem _ hr))]
      show joinNl (d0 :: ds) = remove_duplicates t
      show joinNl (d0 :: ds) = joinNl (dedupAux [] (trimmedPars t))
      rw [hDD]

/-! ## Claim C9: the response parser -/

/-- The literal pattern does not occur anywhere in `t`. -/
def noOcc (pat t : List Char) : Prop :=
  ∀ i, ¬ pat <+: List.drop i t

/-- `t` decomposes as `a ++ pat ++ b` at the FIRST occurrence of `pat`:
no occurrence starts before position `a.length`. -/
def firstAt (pat t a b : List Char) : Prop :=
  t = a ++ pat ++ b ∧ ∀ i < a.length, ¬ pat <+: List.drop i t

theorem breakOn_none_of_noOcc : ∀ {pat t : List Char}, pat ≠ [] →
    noOcc pat t → breakOn pat t = none := by
  intro pat t
  induction t with
  | nil =>
    intro hpat _
    rcases pat with _ | ⟨q, qs⟩
    · exact absurd rfl hpat
    · simp [breakOn]
  | cons c cs ih =>
    intro hpat h
    have hnp : ¬ pat.isPrefixOf (c :: cs) = true := fun hp =>
      h 0 (by simpa using List.isPrefixOf_iff_prefix.mp hp)
    simp only [breakOn, if_neg hnp]
    rw [ih hpat (fun i => by simpa using h (i + 1))]
    rfl

theorem breakOn_of_firstAt : ∀ {pat b : List Char} (a : List Char)
    {t : List Char}, t = a ++ pat ++ b →
    (∀ i < a.length, ¬ pat <+: List.drop i t) → breakOn pat t = some (a, b) := by
  intro pat b a
  induction a with
  | nil =>
    intro t ht _
    subst ht
    rcases hpt : pat with _ | ⟨p0, ps'⟩
    · rcases b with _ | ⟨b0, bs⟩
      · simp [breakOn]
      · simp [breakOn, List.isPrefixOf]
    · show breakOn (p0 :: ps') (p0 :: (ps' ++ b)) = some ([], b)
      have hpre : (p0 :: ps').isPrefixOf (p0 :: (ps' ++ b)) = true :=
        List.isPrefixOf_iff_prefix.mpr (List.prefix_append (p0 :: ps') b)
      simp only [breakOn, if_pos hpre]
      rw [show List.drop (p0 :: ps').length (p0 :: (ps' ++ b)) = b from by
        simp]
  | cons a0 a' ih =>
    intro t ht h
    subst ht
    show breakOn pat (a0 :: (a' ++ pat ++ b)) = some (a0 :: a', b)
    have h0 : ¬ pat.isPrefixOf (a0 :: (a' ++ pat ++ b)) = true := by
      intro hp
      exact h 0 (by simp) (by simpa using List.isPrefixOf_iff_prefix.mp hp)
    simp only [breakOn, if_neg h0]
    rw [ih rfl (fun i hi => by
      have hh := h (i + 1) (by simpa using Nat.succ_lt_succ hi)
      simpa using hh)]
    rfl

theorem textField_eq_none {lbl t : List Char} (h : breakOn lbl t = none) :
    textField lbl t = [] := by
  simp [textField, sectionFor, h]

theorem textField_eq_some {lbl t a b : List Char}
    (h : breakOn lbl t = some (a, b)) :
    textField lbl t = stripCh (upToStars b) := by
  simp [textField, sectionFor, h]

theorem listField_eq_none {lbl t : List Char} (h : breakOn lbl t = none) :
    listField lbl t = [] := by
  simp [listField, sectionFor, h]

theorem listField_eq_some {lbl t a b : List Char}
    (h : breakOn lbl t = some (a, b)) :
    listField lbl t = commaItems (stripCh (upToStars b)) := by
  simp [listField, sectionFor, h]

/-- Claim C9: `parse_profile_text` always returns a record with all six
fields.  A missing label yields that field's empty default.  A label found
first at the decomposition `t = a ++ label ++ b` yields the section of `b`
up to the next `**` marker (or the end of the text), trimmed, and for the
list-valued fields split on commas with each item trimmed and blank items
dropped.  The final two conjuncts pin down the `**`-boundary extraction
itself. -/
theorem C9_parse_fields (t : List Char) :
    (noOcc nameLbl t → (parse_profile_text t).name = []) ∧
    (noOcc expertiseLbl t → (parse_profile_text t).expertise = []) ∧
    (noOcc audienceLbl t → (parse_profile_text t).target_audience = []) ∧
    (noOcc summaryLbl t → (parse_profile_text t).activity_summary = []) ∧
    (noOcc toneLbl t → (parse_profile_text t).personal_tone = []) ∧
    (noOcc strengthsLbl t → (parse_profile_text t).strengths = []) ∧
    (∀ a b, firstAt nameLbl t a b →
      (parse_profile_text t).name = stripCh (upToStars b)) ∧
    (∀ a b, firstAt expertiseLbl t a b →
      (parse_profile_text t).expertise = commaItems (stripCh (upToStars b))) ∧
    (∀ a b, firstAt audienceLbl t a b →
      (parse_profile_text t).target_audience =
        commaItems (stripCh (upToStars b))) ∧
    (∀ a b, firstAt summaryLbl t a b →
      (parse_profile_text t).activity_summary = stripCh (upToStars b)) ∧
    (∀ a b, firstAt toneLbl t a b →
      (parse_profile_text t).personal_tone = stripCh (upToStars b)) ∧
    (∀ a b, firstAt strengthsLbl t a b →
      (parse_profile_text t).strengths = commaItems (stripCh (upToStars b))) ∧
    (∀ b, noOcc starsPat b → upToStars b = b) ∧
    (∀ b c r, firstAt starsPat b c r → upToStars b = c) := by
  refine ⟨?_, ?_, ?_, ?_, ?_, ?_, ?_, ?_, ?_, ?_, ?_, ?_, ?_, ?_⟩
  · intro h
    exact textField_eq_none (breakOn_none_of_noOcc (by decide) h)
  · intro h
    exact listField_eq_none (breakOn_none_of_noOcc (by decide) h)
  · intro h
    exact listField_eq_none (breakOn_none_of_noOcc (by decide) h)
  · intro h
    exact textField_eq_none (breakOn_none_of_noOcc (by decide) h)
  · intro h
    exact textField_eq_none (breakOn_none_of_noOcc (by decide) h)
  · intro h
    exact listField_eq_none (breakOn_none_of_noOcc (by decide) h)
  · intro a b h
    exact textField_eq_some (breakOn_of_firstAt a h.1 h.2)
  · intro a b h
    exact listField_eq_some (breakOn_of_firstAt a h.1 h.2)
  · intro a b h
    exact listField_eq_some (breakOn_of_firstAt a h.1 h.2)
  · intro a b h
    exact textField_eq_some (breakOn_of_firstAt a h.1 h.2)
  · intro a b h
    exact textField_eq_some (breakOn_of_firstAt a h.1 h.2)
  · intro a b h
    exact listField_eq_some (breakOn_of_firstAt a h.1 h.2)
  · intro b h
    rw [upToStars, breakOn_none_of_noOcc (by decide) h]
  · intro b c r h
    rw [upToStars, breakOn_of_firstAt c h.1 h.2]

/-- Unbounded non-occurrence follows from the bounded check: past the end
of the text every drop is empty and a non-empty pattern cannot start
there. -/
theorem noOcc_of_bounded {pat t : List Char} (hpat : pat ≠ [])
    (h : ∀ i < t.length, ¬ pat <+: List.drop i t) : noOcc pat t := by
  intro i
  by_cases hi : i < t.length
  · exact h i hi
  · intro hp
    rw [List.drop_eq_nil_of_le (Nat.le_of_not_lt hi)] at hp
    exact hpat (List.prefix_nil.mp hp)

/-- A synthesizer response following the template. -/
def respEx : List Char :=
  "**Name:** Ada Lovelace\n**Expertise:** math, computing\n**Strengths:** rigor".toList

/-- The remainder of `respEx` after its `**Name:**` label. -/
def nameRest : List Char :=
  " Ada Lovelace\n**Expertise:** math, computing\n**Strengths:** rigor".toList

/-- The part of `respEx` before its `**Expertise:**` label. -/
def expBefore : List Char := "**Name:** Ada Lovelace\n".toList

/-- The remainder of `respEx` after its `**Expertise:**` label. -/
def expRest : List Char := " math, computing\n**Strengths:** rigor".toList

set_option maxRecDepth 16000 in
/-- Witness for `C9_parse_fields` on a concrete template response: a present
string field, a present list field, and a missing label. -/
theorem C9_witness :
    (parse_profile_text respEx).name = stripCh (upToStars nameRest) ∧
      (parse_profile_text respEx).expertise =
        commaItems (stripCh (upToStars expRest)) ∧
      (parse_profile_text respEx).personal_tone = [] :=
  ⟨(C9_parse_fields respEx).2.2.2.2.2.2.1 [] nameRest ⟨by decide, by decide⟩,
    (C9_parse_fields respEx).2.2.2.2.2.2.2.1 expBefore expRest ⟨by decide, by decide⟩,
    (C9_parse_fields respEx).2.2.2.2.1
      (noOcc_of_bounded (by decide) (by decide))⟩

/-! ## Claim C6: idempotence of `clean_text`

The proof tracks three invariants of `clean_text`'s output through the five
stages: no position matches the URL regex, no `'@'` character remains, every
character is in the allowed set with whitespace normalized to single blanks,
and the ends are trimmed.  On such a string every stage of a second pass is
the identity. -/

theorem pySubUrl_nil : pySubUrl [] = [] := by
  rw [pySubUrl]

theorem pySubUrl_cons_pos {c : Char} {cs : List Char}
    (h : urlAt (c :: cs) = true) :
    pySubUrl (c :: cs) = pySubUrl (dropNonSpace cs) := by
  rw [pySubUrl, if_pos h]

theorem pySubUrl_cons_neg {c : Char} {cs : List Char}
    (h : urlAt (c :: cs) = false) :
    pySubUrl (c :: cs) = c :: pySubUrl cs := by
  rw [pySubUrl, if_neg (by simp [h])]

theorem pySubEmail_nil : pySubEmail [] = [] := by
  rw [pySubEmail]

theorem pySubEmail_cons_pos {c : Char} {cs : List Char}
    (h : emailAt (c :: cs) = true) :
    pySubEmail (c :: cs) = pySubEmail (dropNonSpace cs) := by
  rw [pySubEmail, if_pos h]

theorem pySubEmail_cons_neg {c : Char} {cs : List Char}
    (h : emailAt (c :: cs) = false) :
    pySubEmail (c :: cs) = c :: pySubEmail cs := by
  rw [pySubEmail, if_neg (by simp [h])]

theorem collapseWs_nil : collapseWs [] = [] := by
  rw [collapseWs]

theorem collapseWs_cons_pos {c : Char} {cs : List Char}
    (h : isSpaceCh c = true) :
    collapseWs (c :: cs) = ' ' :: collapseWs (cs.dropWhile isSpaceCh) := by
  rw [collapseWs, if_pos h]

theorem collapseWs_cons_neg {c : Char} {cs : List Char}
    (h : isSpaceCh c = false) :
    collapseWs (c :: cs) = c :: collapseWs cs := by
  rw [collapseWs, if_neg (by simp [h])]

theorem isPrefixOf_cons_head {a c : Char} {as l : List Char}
    (h : (a :: as).isPrefixOf (c :: l) = true) : a = c := by
  simp only [List.isPrefixOf, Bool.and_eq_true, beq_iff_eq] at h
  exact h.1

theorem emailAt_space_head {c : Char} {cs : List Char}
    (h : isSpaceCh c = true) : emailAt (c :: cs) = false := by
  simp [emailAt, takeNonSpace, h]

theorem emailAt_mem {l : List Char} (h : emailAt l = true) : '@' ∈ l := by
  rw [emailAt] at h
  rcases htk : takeNonSpace l with _ | ⟨r0, rest⟩
  · rw [htk] at h
    simp at h
  · rw [htk] at h
    have h1 : '@' ∈ rest.dropLast := List.elem_iff.mp h
    have h2 : '@' ∈ takeNonSpace l := by
      rw [htk]
      exact List.mem_cons_of_mem _ ((List.dropLast_sublist rest).subset h1)
    exact (List.takeWhile_sublist _).subset h2

/-- `prefNS p l` holds exactly when `p` extended by one non-whitespace
character is a prefix of `l`. -/
theorem prefNS_iff {p l : List Char} : prefNS p l = true ↔
    ∃ d, isSpaceCh d = false ∧ (p ++ [d]).isPrefixOf l = true := by
  constructor
  · intro h
    simp only [prefNS, Bool.and_eq_true] at h
    obtain ⟨h1, h2⟩ := h
    obtain ⟨t, ht⟩ := List.isPrefixOf_iff_prefix.mp h1
    rcases hd : l.drop p.length with _ | ⟨d, rest⟩
    · rw [hd] at h2
      simp at h2
    · rw [hd] at h2
      refine ⟨d, by simpa using h2, List.isPrefixOf_iff_prefix.mpr ?_⟩
      subst ht
      rw [List.drop_left] at hd
      subst hd
      exact ⟨rest, by simp⟩
  · rintro ⟨d, hd, hpre⟩
    obtain ⟨t, ht⟩ := List.isPrefixOf_iff_prefix.mp hpre
    simp only [prefNS, Bool.and_eq_true]
    constructor
    · exact List.isPrefixOf_iff_prefix.mpr ⟨[d] ++ t, by rw [← ht]; simp⟩
    · rw [← ht, show (p ++ [d]) ++ t = p ++ (d :: t) from by simp,
        List.drop_left]
      simpa using hd

/-- The three scheme literals of the URL regex. -/
def urlPats : List (List Char) :=
  [ [ 'h', 't', 't', 'p', ':', '/', '/' ],
    [ 'h', 't', 't', 'p', 's', ':', '/', '/' ],
    [ 'w', 'w', 'w', '.' ] ]

theorem urlAt_true_elim {m : List Char} (h : urlAt m = true) :
    ∃ p d, p ∈ urlPats ∧ isSpaceCh d = false ∧
      (p ++ [d]).isPrefixOf m = true := by
  simp only [urlAt, Bool.or_eq_true] at h
  rcases h with (h | h) | h
  · obtain ⟨d, hd, hp⟩ := prefNS_iff.mp h
    exact ⟨_, d, by simp [urlPats], hd, hp⟩
  · obtain ⟨d, hd, hp⟩ := prefNS_iff.mp h
    exact ⟨_, d, by simp [urlPats], hd, hp⟩
  · obtain ⟨d, hd, hp⟩ := prefNS_iff.mp h
    exact ⟨_, d, by simp [urlPats], hd, hp⟩

theorem urlAt_intro {m p : List Char} {d : Char} (hp : p ∈ urlPats)
    (hd : isSpaceCh d = false) (hpre : (p ++ [d]).isPrefixOf m = true) :
    urlAt m = true := by
  simp only [urlPats, List.mem_cons, List.not_mem_nil, or_false] at hp
  rcases hp with rfl | rfl | rfl
  · simp only [urlAt, Bool.or_eq_true]
    exact Or.inl (Or.inl (prefNS_iff.mpr ⟨d, hd, hpre⟩))
  · simp only [urlAt, Bool.or_eq_true]
    exact Or.inl (Or.inr (prefNS_iff.mpr ⟨d, hd, hpre⟩))
  · simp only [urlAt, Bool.or_eq_true]
    exact Or.inr (prefNS_iff.mpr ⟨d, hd, hpre⟩)

theorem all_nonspace_of_check {q : List Char}
    (hq : q.all (fun c => !isSpaceCh c) = true) :
    ∀ e ∈ q, isSpaceCh e = false := by
  intro e he
  simpa using List.all_eq_true.mp hq e he

theorem urlPats_nonspace {p : List Char} (hp : p ∈ urlPats) :
    ∀ e ∈ p, isSpaceCh e = false := by
  simp only [urlPats, List.mem_cons, List.not_mem_nil, or_false] at hp
  rcases hp with rfl | rfl | rfl <;> exact all_nonspace_of_check (by decide)

/-- A `urlAt` match forces the head character to be the scheme's first
letter. -/
theorem urlAt_head {c : Char} {cs : List Char} (h : urlAt (c :: cs) = true) :
    c = 'h' ∨ c = 'w' := by
  obtain ⟨p, d, hp, _, hpre⟩ := urlAt_true_elim h
  simp only [urlPats, List.mem_cons, List.not_mem_nil, or_false] at hp
  rcases hp with rfl | rfl | rfl
  · exact Or.inl (isPrefixOf_cons_head hpre).symm
  · exact Or.inl (isPrefixOf_cons_head hpre).symm
  · exact Or.inr (isPrefixOf_cons_head hpre).symm

theorem urlAt_space_head {c : Char} {cs : List Char}
    (h : isSpaceCh c = true) : urlAt (c :: cs) = false := by
  cases hv : urlAt (c :: cs)
  · rfl
  · rcases urlAt_head hv with rfl | rfl <;> simp [isSpaceCh] at h

/-- No position of `l` matches the URL regex. -/
def noUrlOcc (l : List Char) : Prop :=
  ∀ i, urlAt (List.drop i l) = false

theorem noUrlOcc_nil : noUrlOcc [] := by
  intro i
  rw [List.drop_nil]
  decide

theorem noUrlOcc_tail {c : Char} {cs : List Char} (h : noUrlOcc (c :: cs)) :
    noUrlOcc cs := by
  intro i
  have h2 := h (i + 1)
  simpa using h2

theorem noUrlOcc_cons_intro {c : Char} {X : List Char}
    (h0 : urlAt (c :: X) = false) (h : noUrlOcc X) : noUrlOcc (c :: X) := by
  intro i
  cases i with
  | zero => simpa using h0
  | succ n => simpa using h n

theorem urlAt_of_isPre {r s : List Char} (hrs : r <+: s)
    (h : urlAt r = true) : urlAt s = true := by
  obtain ⟨p, d, hp, hd, hpre⟩ := urlAt_true_elim h
  exact urlAt_intro hp hd
    (List.isPrefixOf_iff_prefix.mpr
      ((List.isPrefixOf_iff_prefix.mp hpre).trans hrs))

theorem noUrlOcc_suffix {m l : List Char} (hs : m <:+ l) (h : noUrlOcc l) :
    noUrlOcc m := by
  obtain ⟨t, ht⟩ := hs
  intro i
  have h2 := h (t.length + i)
  rw [← ht, ← List.drop_drop, List.drop_left] at h2
  exact h2

theorem noUrlOcc_front {m l : List Char} (hp : m <+: l) (h : noUrlOcc l) :
    noUrlOcc m := by
  intro i
  cases hua : urlAt (List.drop i m)
  · rfl
  · have h2 := urlAt_of_isPre (hp.drop i) hua
    rw [h i] at h2
    cases h2

/-- The head of `dropNonSpace` (when non-empty) is whitespace. -/
theorem dropNonSpace_head_space {cs : List Char} {d : Char} {ds : List Char}
    (h : dropNonSpace cs = d :: ds) : isSpaceCh d = true := by
  have h2 := dropWhile_eq_cons_head (p := fun c => !isSpaceCh c) h
  simpa using h2

/-- Lifting a non-whitespace prefix of `pySubUrl l` back to `l`. -/
theorem nsLift_url : ∀ (l r : List Char), (∀ e ∈ r, isSpaceCh e = false) →
    r.isPrefixOf (pySubUrl l) = true → r.isPrefixOf l = true := by
  intro l
  induction l using pySubUrl.induct with
  | case1 =>
    intro r hns h
    rw [pySubUrl_nil] at h
    exact h
  | case2 c cs hurl ih =>
    intro r hns h
    rw [pySubUrl_cons_pos hurl] at h
    rcases hd : dropNonSpace cs with _ | ⟨d, ds⟩
    · rw [hd, pySubUrl_nil] at h
      have hr : r = [] := List.prefix_nil.mp (List.isPrefixOf_iff_prefix.mp h)
      subst hr
      simp [List.isPrefixOf]
    · have hdsp : isSpaceCh d = true := dropNonSpace_head_space hd
      rw [hd, pySubUrl_cons_neg (urlAt_space_head hdsp)] at h
      cases r with
      | nil => simp [List.isPrefixOf]
      | cons r0 r' =>
        have hr0 : r0 = d := isPrefixOf_cons_head h
        have := hns r0 (by simp)
        rw [hr0, hdsp] at this
        cases this
  | case3 c cs hnurl ih =>
    intro r hns h
    have hcf : urlAt (c :: cs) = false := by
      cases hv : urlAt (c :: cs)
      · rfl
      · exact absurd hv hnurl
    rw [pySubUrl_cons_neg hcf] at h
    cases r with
    | nil => simp [List.isPrefixOf]
    | cons r0 r' =>
      simp only [List.isPrefixOf, Bool.and_eq_true] at h ⊢
      exact ⟨h.1, ih r' (fun e he => hns e (List.mem_cons_of_mem _ he)) h.2⟩

/-- Lifting a non-whitespace prefix of `pySubEmail l` back to `l`. -/
theorem nsLift_email : ∀ (l r : List Char), (∀ e ∈ r, isSpaceCh e = false) →
    r.isPrefixOf (pySubEmail l) = true → r.isPrefixOf l = true := by
  intro l
  induction l using pySubEmail.induct with
  | case1 =>
    intro r hns h
    rw [pySubEmail_nil] at h
    exact h
  | case2 c cs hem ih =>
    intro r hns h
    rw [pySubEmail_cons_pos hem] at h
    rcases hd : dropNonSpace cs with _ | ⟨d, ds⟩
    · rw [hd, pySubEmail_nil] at h
      have hr : r = [] := List.prefix_nil.mp (List.isPrefixOf_iff_prefix.mp h)
      subst hr
      simp [List.isPrefixOf]
    · have hdsp : isSpaceCh d = true := dropNonSpace_head_space hd
      rw [hd, pySubEmail_cons_neg (emailAt_space_head hdsp)] at h
      cases r with
      | nil => simp [List.isPrefixOf]
      | cons r0 r' =>
        have hr0 : r0 = d := isPrefixOf_cons_head h
        have := hns r0 (by simp)
        rw [hr0, hdsp] at this
        cases this
  | case3 c cs hnem ih =>
    intro r hns h
    have hcf : emailAt (c :: cs) = false := by
      cases hv : emailAt (c :: cs)
      · rfl
      · exact absurd hv hnem
    rw [pySubEmail_cons_neg hcf] at h
    cases r with
    | nil => simp [List.isPrefixOf]
    | cons r0 r' =>
      simp only [List.isPrefixOf, Bool.and_eq_true] at h ⊢
      exact ⟨h.1, ih r' (fun e he => hns e (List.mem_cons_of_mem _ he)) h.2⟩

/-- Lifting a non-whitespace prefix of `collapseWs l` back to `l`. -/
theorem nsLift_collapse : ∀ (l r : List Char),
    (∀ e ∈ r, isSpaceCh e = false) →
    r.isPrefixOf (collapseWs l) = true → r.isPrefixOf l = true := by
  intro l
  induction l using collapseWs.induct with
  | case1 =>
    intro r hns h
    rw [collapseWs_nil] at h
    exact h
  | case2 c cs hsp ih =>
    intro r hns h
    rw [collapseWs_cons_pos hsp] at h
    cases r with
    | nil => simp [List.isPrefixOf]
    | cons r0 r' =>
      have hr0 : r0 = ' ' := isPrefixOf_cons_head h
      have := hns r0 (by simp)
      rw [hr0] at this
      cases this
  | case3 c cs hnsp ih =>
    intro r hns h
    have hcf : isSpaceCh c = false := by
      cases hv : isSpaceCh c
      · rfl
      · exact absurd hv hnsp
    rw [collapseWs_cons_neg hcf] at h
    cases r with
    | nil => simp [List.isPrefixOf]
    | cons r0 r' =>
      simp only [List.isPrefixOf, Bool.and_eq_true] at h ⊢
      exact ⟨h.1, ih r' (fun e he => hns e (List.mem_cons_of_mem _ he)) h.2⟩

/-- Lifting a non-whitespace prefix of `l.map keepAllowed` back to `l`. -/
theorem nsLift_map : ∀ (l r : List Char), (∀ e ∈ r, isSpaceCh e = false) →
    r.isPrefixOf (l.map keepAllowed) = true → r.isPrefixOf l = true := by
  intro l
  induction l with
  | nil =>
    intro r hns h
    simpa using h
  | cons a ms ih =>
    intro r hns h
    cases r with
    | nil => simp [List.isPrefixOf]
    | cons r0 r' =>
      simp only [List.map_cons] at h
      have hr0 : r0 = keepAllowed a := isPrefixOf_cons_head h
      have ha : keepAllowed a = a := by
        by_cases hal : allowedCh a = true
        · simp [keepAllowed, hal]
        · exfalso
          have hblank : r0 = ' ' := by
            rw [hr0]
            simp [keepAllowed, hal]
          have := hns r0 (by simp)
          rw [hblank] at this
          cases this
      simp only [List.isPrefixOf, Bool.and_eq_true, beq_iff_eq] at h ⊢
      exact ⟨by rw [hr0, ha], ih r'
        (fun e he => hns e (List.mem_cons_of_mem _ he)) h.2⟩

/-- Prefix lifting through a common head character. -/
theorem isPrefixOf_cons_lift {c : Char} {X Y r : List Char}
    (hlift : ∀ r' : List Char, (∀ e ∈ r', isSpaceCh e = false) →
      r'.isPrefixOf X = true → r'.isPrefixOf Y = true)
    (hns : ∀ e ∈ r, isSpaceCh e = false)
    (h : r.isPrefixOf (c :: X) = true) : r.isPrefixOf (c :: Y) = true := by
  cases r with
  | nil => simp [List.isPrefixOf]
  | cons r0 r' =>
    simp only [List.isPrefixOf, Bool.and_eq_true] at h ⊢
    exact ⟨h.1, hlift r' (fun e he => hns e (List.mem_cons_of_mem _ he)) h.2⟩

/-- Transporting a `urlAt` match along a non-whitespace prefix lift. -/
theorem urlAt_lift {X Y : List Char}
    (hlift : ∀ r : List Char, (∀ e ∈ r, isSpaceCh e = false) →
      r.isPrefixOf X = true → r.isPrefixOf Y = true)
    (h : urlAt X = true) : urlAt Y = true := by
  obtain ⟨p, d, hp, hd, hpre⟩ := urlAt_true_elim h
  refine urlAt_intro hp hd (hlift (p ++ [d]) ?_ hpre)
  intro e he
  rcases List.mem_append.mp he with he' | he'
  · exact urlPats_nonspace hp e he'
  · have he2 : e = d := by simpa using he'
    subst he2
    exact hd

/-- After `pySubUrl` no position matches the URL regex. -/
theorem noUrlOcc_pySubUrl : ∀ l, noUrlOcc (pySubUrl l) := by
  intro l
  induction l using pySubUrl.induct with
  | case1 =>
    rw [pySubUrl_nil]
    exact noUrlOcc_nil
  | case2 c cs hurl ih =>
    rw [pySubUrl_cons_pos hurl]
    exact ih
  | case3 c cs hnurl ih =>
    have hcf : urlAt (c :: cs) = false := by
      cases hv : urlAt (c :: cs)
      · rfl
      · exact absurd hv hnurl
    rw [pySubUrl_cons_neg hcf]
    refine noUrlOcc_cons_intro ?_ ih
    cases hua : urlAt (c :: pySubUrl cs)
    · rfl
    · have h2 : urlAt (c :: cs) = true :=
        urlAt_lift (fun r hns h => isPrefixOf_cons_lift (nsLift_url cs) hns h)
          hua
      rw [hcf] at h2
      cases h2

/-- `pySubEmail` preserves the absence of URL matches. -/
theorem noUrlOcc_pySubEmail : ∀ l, noUrlOcc l → noUrlOcc (pySubEmail l) := by
  intro l
  induction l using pySubEmail.induct with
  | case1 =>
    intro _
    rw [pySubEmail_nil]
    exact noUrlOcc_nil
  | case2 c cs hem ih =>
    intro h
    rw [pySubEmail_cons_pos hem]
    exact ih (noUrlOcc_suffix (List.dropWhile_suffix _) (noUrlOcc_tail h))
  | case3 c cs hnem ih =>
    intro h
    have hcf : emailAt (c :: cs) = false := by
      cases hv : emailAt (c :: cs)
      · rfl
      · exact absurd hv hnem
    rw [pySubEmail_cons_neg hcf]
    refine noUrlOcc_cons_intro ?_ (ih (noUrlOcc_tail h))
    cases hua : urlAt (c :: pySubEmail cs)
    · rfl
    · have h2 : urlAt (c :: cs) = true :=
        urlAt_lift
          (fun r hns hr => isPrefixOf_cons_lift (nsLift_email cs) hns hr) hua

      have h0 := h 0
      rw [List.drop_zero] at h0
      rw [h0] at h2
      cases h2

/-- `map keepAllowed` preserves the absence of URL matches. -/
theorem noUrlOcc_map {l : List Char} (h : noUrlOcc l) :
    noUrlOcc (l.map keepAllowed) := by
  intro i
  rw [← List.map_drop]
  cases hua : urlAt ((List.drop i l).map keepAllowed)
  · rfl
  · have h2 : urlAt (List.drop i l) = true :=
      urlAt_lift (nsLift_map (List.drop i l)) hua
    rw [h i] at h2
    cases h2

/-- `collapseWs` preserves the absence of URL matches. -/
theorem noUrlOcc_collapseWs : ∀ l, noUrlOcc l → noUrlOcc (collapseWs l) := by
  intro l
  induction l using collapseWs.induct with
  | case1 =>
    intro _
    rw [collapseWs_nil]
    exact noUrlOcc_nil
  | case2 c cs hsp ih =>
    intro h
    rw [collapseWs_cons_pos hsp]
    refine noUrlOcc_cons_intro (urlAt_space_head (by decide)) ?_
    exact ih (noUrlOcc_suffix (List.dropWhile_suffix _) (noUrlOcc_tail h))
  | case3 c cs hnsp ih =>
    intro h
    have hcf : isSpaceCh c = false := by
      cases hv : isSpaceCh c
      · rfl
      · exact absurd hv hnsp
    rw [collapseWs_cons_neg hcf]
    refine noUrlOcc_cons_intro ?_ (ih (noUrlOcc_tail h))
    cases hua : urlAt (c :: collapseWs cs)
    · rfl
    · have h2 : urlAt (c :: cs) = true :=
        urlAt_lift
          (fun r hns hr => isPrefixOf_cons_lift (nsLift_collapse cs) hns hr)
          hua
      have h0 := h 0
      rw [List.drop_zero] at h0
      rw [h0] at h2
      cases h2

/-- A string with no URL match is a fixed point of `pySubUrl`. -/
theorem pySubUrl_eq_self : ∀ l, noUrlOcc l → pySubUrl l = l := by
  intro l
  induction l with
  | nil => intro _; exact pySubUrl_nil
  | cons c cs ih =>
    intro h
    have h0 := h 0
    rw [List.drop_zero] at h0
    rw [pySubUrl_cons_neg h0, ih (noUrlOcc_tail h)]

/-- An `'@'`-free string is a fixed point of `pySubEmail`. -/
theorem pySubEmail_eq_self : ∀ l : List Char, '@' ∉ l → pySubEmail l = l := by
  intro l
  induction l with
  | nil => intro _; exact pySubEmail_nil
  | cons c cs ih =>
    intro h
    have hem : emailAt (c :: cs) = false := by
      cases hv : emailAt (c :: cs)
      · rfl
      · exact absurd (emailAt_mem hv) h
    rw [pySubEmail_cons_neg hem,
      ih (fun hm => h (List.mem_cons_of_mem _ hm))]

theorem keepAllowed_eq_self {c : Char} (h : allowedCh c = true) :
    keepAllowed c = c := by
  simp [keepAllowed, h]

/-- Every character `keepAllowed` emits is in the allowed set. -/
theorem keepAllowed_allowed (c : Char) : allowedCh (keepAllowed c) = true := by
  by_cases h : allowedCh c = true
  · rw [keepAllowed_eq_self h]
    exact h
  · have hb : keepAllowed c = ' ' := by simp [keepAllowed, h]
    rw [hb]
    decide

theorem allowedCh_ne_at {c : Char} (h : allowedCh c = true) : c ≠ '@' := by
  intro hc
  subst hc
  cases h

/-- Characters of `collapseWs l` come from `l` or are the single blank. -/
theorem mem_collapseWs : ∀ (l : List Char) (c : Char),
    c ∈ collapseWs l → c ∈ l ∨ c = ' ' := by
  intro l
  induction l using collapseWs.induct with
  | case1 =>
    intro c hc
    rw [collapseWs_nil] at hc
    cases hc
  | case2 d cs hsp ih =>
    intro c hc
    rw [collapseWs_cons_pos hsp] at hc
    rcases List.mem_cons.mp hc with rfl | hc'
    · exact Or.inr rfl
    · rcases ih c hc' with hm | hb
      · exact Or.inl (List.mem_cons_of_mem _
          ((List.dropWhile_sublist _).subset hm))
      · exact Or.inr hb
  | case3 d cs hnsp ih =>
    intro c hc
    have hcf : isSpaceCh d = false := by
      cases hv : isSpaceCh d
      · rfl
      · exact absurd hv hnsp
    rw [collapseWs_cons_neg hcf] at hc
    rcases List.mem_cons.mp hc with rfl | hc'
    · exact Or.inl (List.mem_cons_self _ _)
    · rcases ih c hc' with hm | hb
      · exact Or.inl (List.mem_cons_of_mem _ hm)
      · exact Or.inr hb

/-- Whitespace characters of `collapseWs l` are single blanks. -/
theorem collapseWs_space_blank : ∀ (l : List Char) (c : Char),
    c ∈ collapseWs l → isSpaceCh c = true → c = ' ' := by
  intro l
  induction l using collapseWs.induct with
  | case1 =>
    intro c hc _
    rw [collapseWs_nil] at hc
    cases hc
  | case2 d cs hsp ih =>
    intro c hc hspc
    rw [collapseWs_cons_pos hsp] at hc
    rcases List.mem_cons.mp hc with rfl | hc'
    · rfl
    · exact ih c hc' hspc
  | case3 d cs hnsp ih =>
    intro c hc hspc
    have hcf : isSpaceCh d = false := by
      cases hv : isSpaceCh d
      · rfl
      · exact absurd hv hnsp
    rw [collapseWs_cons_neg hcf] at hc
    rcases List.mem_cons.mp hc with rfl | hc'
    · rw [hspc] at hcf
      cases hcf
    · exact ih c hc' hspc

/-- No two adjacent whitespace characters. -/
def noTwoSp : List Char → Prop
  | [] => True
  | [_] => True
  | a :: b :: t => ¬(isSpaceCh a = true ∧ isSpaceCh b = true) ∧ noTwoSp (b :: t)

theorem noTwoSp_tail {a : Char} {l : List Char} (h : noTwoSp (a :: l)) :
    noTwoSp l := by
  cases l with
  | nil => trivial
  | cons b t => exact h.2

theorem noTwoSp_cons_intro {a : Char} {l : List Char}
    (hpair : ∀ b bs, l = b :: bs → ¬(isSpaceCh a = true ∧ isSpaceCh b = true))
    (h : noTwoSp l) : noTwoSp (a :: l) := by
  cases l with
  | nil => trivial
  | cons b t => exact ⟨hpair b t rfl, h⟩

theorem noTwoSp_append_left : ∀ {m t : List Char}, noTwoSp (m ++ t) →
    noTwoSp m := by
  intro m
  induction m with
  | nil => intro t _; trivial
  | cons a m' ih =>
    intro t h
    cases m' with
    | nil => trivial
    | cons b m'' => exact ⟨h.1, ih h.2⟩

theorem noTwoSp_append_right : ∀ (t : List Char) {m : List Char},
    noTwoSp (t ++ m) → noTwoSp m := by
  intro t
  induction t with
  | nil => intro m h; exact h
  | cons a t' ih => intro m h; exact ih (noTwoSp_tail h)

theorem noTwoSp_strip {l : List Char} (h : noTwoSp l) :
    noTwoSp (stripCh l) := by
  obtain ⟨u, hu⟩ := dropTrail_front (l.dropWhile isSpaceCh)
  obtain ⟨t, ht⟩ := List.dropWhile_suffix (l := l) isSpaceCh
  have h1 : noTwoSp (l.dropWhile isSpaceCh) := by
    rw [← ht] at h
    exact noTwoSp_append_right t h
  rw [← hu] at h1
  exact noTwoSp_append_left h1

/-- The chunks of `collapseWs` output never put two whitespace characters
side by side. -/
theorem noTwoSp_collapseWs : ∀ l, noTwoSp (collapseWs l) := by
  intro l
  induction l using collapseWs.induct with
  | case1 =>
    rw [collapseWs_nil]
    trivial
  | case2 c cs hsp ih =>
    rw [collapseWs_cons_pos hsp]
    refine noTwoSp_cons_intro ?_ ih
    intro b bs hb hpair
    rcases hX : cs.dropWhile isSpaceCh with _ | ⟨x, xs⟩
    · rw [hX, collapseWs_nil] at hb
      cases hb
    · have hxns : isSpaceCh x = false := by
        have h2 := dropWhile_eq_cons_head (p := isSpaceCh) hX
        exact h2
      rw [hX, collapseWs_cons_neg hxns] at hb
      injection hb with hb1 _
      rw [hb1] at hxns
      rw [hpair.2] at hxns
      cases hxns
  | case3 c cs hnsp ih =>
    have hcf : isSpaceCh c = false := by
      cases hv : isSpaceCh c
      · rfl
      · exact absurd hv hnsp
    rw [collapseWs_cons_neg hcf]
    refine noTwoSp_cons_intro ?_ ih
    intro b bs _ hpair
    rw [hpair.1] at hcf
    cases hcf

/-- A string of allowed characters with single blanks and no double blanks
is a fixed point of `collapseWs`. -/
theorem collapseWs_eq_self : ∀ l : List Char,
    (∀ c ∈ l, isSpaceCh c = true → c = ' ') → noTwoSp l →
    collapseWs l = l := by
  intro l
  induction l with
  | nil => intro _ _; exact collapseWs_nil
  | cons c cs ih =>
    intro hsp hnt
    by_cases hc : isSpaceCh c = true
    · have hcb : c = ' ' := hsp c (List.mem_cons_self _ _) hc
      rw [collapseWs_cons_pos hc]
      have hdw : cs.dropWhile isSpaceCh = cs := by
        cases cs with
        | nil => rfl
        | cons b bs =>
          have hb : isSpaceCh b = false := by
            cases hbv : isSpaceCh b
            · rfl
            · exact absurd ⟨hc, hbv⟩ hnt.1
          exact List.dropWhile_cons_of_neg (by simp [hb])
      rw [hdw, ← hcb,
        ih (fun e he hs => hsp e (List.mem_cons_of_mem _ he) hs)
          (noTwoSp_tail hnt)]
    · rw [collapseWs_cons_neg (by simpa using hc),
        ih (fun e he hs => hsp e (List.mem_cons_of_mem _ he) hs)
          (noTwoSp_tail hnt)]

/-- Claim C6: `clean_text` is idempotent. -/
theorem C6_clean_text_idempotent (x : List Char) :
    clean_text (clean_text x) = clean_text x := by
  have h2 : noUrlOcc (pySubEmail (pySubUrl x)) :=
    noUrlOcc_pySubEmail _ (noUrlOcc_pySubUrl x)
  have h3 : noUrlOcc ((pySubEmail (pySubUrl x)).map keepAllowed) :=
    noUrlOcc_map h2
  have h4 : noUrlOcc (collapseWs ((pySubEmail (pySubUrl x)).map keepAllowed)) :=
    noUrlOcc_collapseWs _ h3
  have h5 : noUrlOcc (clean_text x) :=
    noUrlOcc_front (dropTrail_front _)
      (noUrlOcc_suffix (List.dropWhile_suffix _) h4)
  have hmemk : ∀ c ∈ clean_text x,
      c ∈ (pySubEmail (pySubUrl x)).map keepAllowed ∨ c = ' ' := by
    intro c hc
    exact mem_collapseWs _ c ((stripCh_sublist _).subset hc)
  have hall : ∀ c ∈ clean_text x, allowedCh c = true := by
    intro c hc
    rcases hmemk c hc with hm | rfl
    · obtain ⟨d, _, rfl⟩ := List.mem_map.mp hm
      exact keepAllowed_allowed d
    · decide
  have hat : '@' ∉ clean_text x := by
    intro hm
    exact allowedCh_ne_at (hall '@' hm) rfl
  have hspb : ∀ c ∈ clean_text x, isSpaceCh c = true → c = ' ' := by
    intro c hc hs
    exact collapseWs_space_blank _ c ((stripCh_sublist _).subset hc) hs
  have hnt : noTwoSp (clean_text x) :=
    noTwoSp_strip (noTwoSp_collapseWs _)
  show stripCh (collapseWs
    ((pySubEmail (pySubUrl (clean_text x))).map keepAllowed)) = clean_text x
  rw [pySubUrl_eq_self _ h5, pySubEmail_eq_self _ hat,
    List.map_congr_left (fun c hc => keepAllowed_eq_self (hall c hc)),
    List.map_id', collapseWs_eq_self _ hspb hnt]
  exact stripCh_stripCh _

end Profiling
